import Mathlib

/-!
Verification of the go-ds-swift datastore adapter (swift.go).

The development shallowly embeds the Go source: the object-storage
connection is modelled at its call boundary (each operation records the
calls it issues and takes the network outcome as an explicit argument),
machine integers are modelled as `Int`, byte slices as `List Nat`, and
the lazy query iterator built from closures over mutable captured state
is modelled as an explicit state machine with a fuel-indexed driver.
-/

namespace SwiftDs

/-- Byte slices (`[]byte`) are modelled as lists of bytes. -/
abbrev Bytes := List Nat

/-- Model of `strings.TrimPrefix(k.String(), "/")` from `keyToName`
(swift.go line 63-65): the leading `/` of the external key string is
stripped if present.  The same helper also models the normalization
`strings.TrimPrefix(q.Prefix, "/")` in `Query` (line 126). -/
def keyToName (k : String) : String :=
  match k.data with
  | '/' :: rest => String.mk rest
  | _ => k

/-- The single-slot query cursor cache (`QueryCache`, swift.go lines 24-29).
The `lock` field is not modelled: all executions considered here are
sequential. -/
structure Cache where
  pfx : String
  index : Int
  name : String
deriving DecidableEq

/-- The zero value of `QueryCache`, as produced at store construction
(`NewSwiftDatastore`, line 56: `cache: &QueryCache{}`). -/
def Cache.empty : Cache := ⟨"", 0, ""⟩

/-- `QueryCache.Invalidate` (lines 31-35): only the marker `name` is
cleared; `pfx` and `index` are left in place. -/
def Cache.invalidate (c : Cache) : Cache := { c with name := "" }

/-- One archive record written by `swiftBatch.Put` (lines 264-275):
a `tar.Header` with `Typeflag: tar.TypeReg`, `Name: k.String()`,
`Size: int64(len(val))`, followed by the value bytes. -/
structure TarRecord where
  typeflag : Nat
  name : String
  size : Int
  body : Bytes
deriving DecidableEq

/-- `tar.TypeReg` is the byte `'0'` = 48. -/
def tarTypeReg : Nat := 48

/-- Calls issued to the swift connection (the §6 collaborator boundary). -/
inductive Call where
  | invalidate
  | objectGet (container name : String)
  | objectPut (container name : String) (val : Bytes) (contentType : String)
  | objectDelete (container name : String)
  | objectStat (container name : String)
  | bulkUpload (container : String) (records : List TarRecord) (format : String)
  | bulkDelete (container : String) (names : List String)
deriving DecidableEq

/-- Errors surfaced by the store, following the source's error values:
`ds.ErrNotFound`, the `fmt.Errorf("integer overflow")` in `GetSize`, and
upstream transport errors propagated verbatim. -/
inductive DsError where
  | notFound
  | overflow
  | upstream (e : String)
deriving DecidableEq

/-- Outcome of `conn.Object` (a stat), used by `Has` and `GetSize`:
either object info with its `Bytes` field, `swift.ObjectNotFound`, or
another error. -/
inductive StatResult where
  | ok (bytes : Int)
  | notFound
  | err (e : String)
deriving DecidableEq

/-- Outcome of `conn.ObjectGetBytes`. -/
inductive GetResult where
  | ok (data : Bytes)
  | notFound
  | err (e : String)
deriving DecidableEq

/-- Outcome of a fallible connection call that returns only an error
(`ObjectPutBytes`, `ObjectDelete`, `BulkUpload`, `BulkDelete`). -/
inductive NetResult where
  | ok
  | err (e : String)
deriving DecidableEq

/-- `SwiftContainer.Get` (lines 67-77): fetches by the stripped storage
name; `swift.ObjectNotFound` maps to `ds.ErrNotFound`, other errors are
propagated.  The result is paired with the list of connection calls. -/
def containerGet (container k : String) (net : GetResult) :
    Except DsError Bytes × List Call :=
  (match net with
   | .ok d => .ok d
   | .notFound => .error .notFound
   | .err e => .error (.upstream e),
   [.objectGet container (keyToName k)])

/-- `SwiftContainer.Delete` (lines 79-82): invalidates the cursor cache,
then issues the object delete; the network outcome is returned as-is. -/
def containerDelete (cache : Cache) (container k : String) (net : NetResult) :
    Except DsError Unit × Cache × List Call :=
  (match net with
   | .ok => .ok ()
   | .err e => .error (.upstream e),
   cache.invalidate,
   [.invalidate, .objectDelete container (keyToName k)])

/-- `SwiftContainer.Put` (lines 84-87): invalidates the cursor cache,
then issues the object put with content type
`application/octet-stream`. -/
def containerPut (cache : Cache) (container k : String) (val : Bytes)
    (net : NetResult) : Except DsError Unit × Cache × List Call :=
  (match net with
   | .ok => .ok ()
   | .err e => .error (.upstream e),
   cache.invalidate,
   [.invalidate, .objectPut container (keyToName k) val "application/octet-stream"])

/-- `SwiftContainer.Has` (lines 89-99): stats the object;
`swift.ObjectNotFound` maps to `false` with no error. -/
def containerHas (container k : String) (net : StatResult) :
    Except DsError Bool × List Call :=
  (match net with
   | .ok _ => .ok true
   | .notFound => .ok false
   | .err e => .error (.upstream e),
   [.objectStat container (keyToName k)])

/-- `maxInt := int64((^uint(0)) >> 1)` (line 113), parametrized by the
platform's `uint` width in bits: `^uint(0) = 2^w - 1`, shifted right by
one. -/
def maxIntGo (uintBits : Nat) : Int := Int.ofNat ((2 ^ uintBits - 1) / 2)

/-- `SwiftContainer.GetSize` (lines 101-118): stats the object; absent
keys yield `ds.ErrNotFound`; a reported size above the platform's
maximum `int` yields the explicit `integer overflow` error; otherwise
the reported size is returned unchanged. -/
def containerGetSize (uintBits : Nat) (container k : String) (net : StatResult) :
    Except DsError Int × List Call :=
  (match net with
   | .notFound => .error .notFound
   | .err e => .error (.upstream e)
   | .ok bytes => if maxIntGo uintBits < bytes then .error .overflow else .ok bytes,
   [.objectStat container (keyToName k)])

/-- The accumulation state of `swiftBatch` (lines 252-257).  `tarRecords
= none` models `tarWriter == nil` (no `Put` has run); `some recs` models
the records written so far through the in-memory tar stream. -/
structure SwiftBatch where
  tarRecords : Option (List TarRecord)
  delKeys : List String
deriving DecidableEq

/-- `SwiftContainer.Batch` (lines 243-250): a fresh batch with nil
writer, nil buffer and nil delete list. -/
def SwiftBatch.fresh : SwiftBatch := ⟨none, []⟩

/-- `swiftBatch.Put` (lines 259-277): lazily initializes the tar writer,
then appends one record with the key's full external string as name and
the exact byte length; writing to the in-memory `bytes.Buffer` cannot
fail, so the result is always success and no connection call is
issued. -/
def batchPut (b : SwiftBatch) (k : String) (val : Bytes) :
    SwiftBatch × List Call :=
  let recs := (b.tarRecords.getD []) ++ [⟨tarTypeReg, k, Int.ofNat val.length, val⟩]
  ({ b with tarRecords := some recs }, [])

/-- `swiftBatch.Delete` (lines 279-282): appends the stripped storage
name to the delete list; always succeeds, no connection call. -/
def batchDelete (b : SwiftBatch) (k : String) : SwiftBatch × List Call :=
  ({ b with delKeys := b.delKeys ++ [keyToName k] }, [])

/-- `swiftBatch.Commit` (lines 284-305): invalidates the query cache,
then (if any puts were buffered) closes the tar stream and issues one
`BulkUpload`, aborting with its error on failure; then (if any deletes
were buffered) issues one `BulkDelete`, returning its error on failure.
Closing the in-memory tar writer cannot fail.  The upload and delete
outcomes are supplied by the `up` and `del` oracle arguments. -/
def batchCommit (cache : Cache) (b : SwiftBatch) (container : String)
    (up del : NetResult) : Except DsError Unit × Cache × List Call :=
  let cache' := cache.invalidate
  match b.tarRecords with
  | some recs =>
    match up with
    | .err e => (.error (.upstream e), cache', [.invalidate, .bulkUpload container recs "tar"])
    | .ok =>
      if b.delKeys = [] then
        (.ok (), cache', [.invalidate, .bulkUpload container recs "tar"])
      else
        (match del with
         | .ok => .ok ()
         | .err e => .error (.upstream e),
         cache',
         [.invalidate, .bulkUpload container recs "tar", .bulkDelete container b.delKeys])
  | none =>
    if b.delKeys = [] then (.ok (), cache', [.invalidate])
    else
      (match del with
       | .ok => .ok ()
       | .err e => .error (.upstream e),
       cache',
       [.invalidate, .bulkDelete container b.delKeys])

/-- A buffered batch operation, used to relate a batch state to the
sequence of `Put`/`Delete` calls that built it. -/
inductive BatchOp where
  | put (k : String) (val : Bytes)
  | del (k : String)
deriving DecidableEq

/-- Apply one buffered operation to a batch state. -/
def applyOp (b : SwiftBatch) : BatchOp → SwiftBatch
  | .put k v => (batchPut b k v).1
  | .del k => (batchDelete b k).1

/-- Replay a sequence of buffered operations, in issue order, on a
fresh batch. -/
def applyOps (ops : List BatchOp) : SwiftBatch :=
  ops.foldl applyOp SwiftBatch.fresh

/-- Whether an operation list contains a `Put`. -/
def hasPut (ops : List BatchOp) : Bool :=
  ops.any fun o => match o with | .put _ _ => true | .del _ => false

/-- Whether an operation list contains a `Delete`. -/
def hasDel (ops : List BatchOp) : Bool :=
  ops.any fun o => match o with | .put _ _ => false | .del _ => true

/-- Predicate picking out bulk-upload calls in a trace. -/
def isBulkUpload : Call → Bool
  | .bulkUpload _ _ _ => true
  | _ => false

/-- Predicate picking out bulk-delete calls in a trace. -/
def isBulkDelete : Call → Bool
  | .bulkDelete _ _ => true
  | _ => false

/-! ## The query engine (SwiftContainer.Query, lines 120-225)

The container content is modelled as an association list from object
names (external keys with the leading separator stripped) to values, in
the ascending name order in which the swift listing API reports them.
The iterator built from the closures in `Query` is modelled as an
explicit state machine over the captured mutable variables
(`opts.Marker`, `opts.Limit`, `offset`, `count`, `names`,
`doneFetching`) together with the shared cursor cache, driven by a
fuel-indexed loop; the fuel arguments are given sufficient values by
the top-level wrappers. -/

/-- Container content: object names with their byte values, listed in
ascending name order. -/
abbrev Store := List (String × Bytes)

/-- The object names of a store, in listing order. -/
def storeNames (s : Store) : List String := s.map Prod.fst

/-- `conn.ObjectGetBytes` against the modelled container: the value of
the named object, if present. -/
def lookupVal (s : Store) (n : String) : Option Bytes :=
  (s.find? fun o => decide (o.1 = n)).map Prod.snd

/-- Whether p is a character-wise prefix of s (the swift server's
Prefix filter; Go compares strings bytewise and UTF-8 preserves
code-point order, so the character-level view agrees). -/
def hasPfx (p s : String) : Bool := p.data.isPrefixOf s.data

/-- Strict character comparison by code point (Go's bytewise string
order coincides with code-point order under UTF-8). -/
def charLt (a b : Char) : Bool := Nat.blt a.toNat b.toNat

/-- Lexicographic order on character lists. -/
def strLtAux : List Char → List Char → Bool
  | [], [] => false
  | [], _ :: _ => true
  | _ :: _, [] => false
  | a :: as, b :: bs =>
    if charLt a b then true else if charLt b a then false else strLtAux as bs

/-- Lexicographic string order, as the swift listing sorts object
names. -/
def strLt (a b : String) : Bool := strLtAux a.data b.data

/-- The names the listing can still return after a marker: names with
the requested object-name prefix that sort strictly after the marker
(swift markers resume listing immediately after the given name). -/
def tailAfter (names : List String) (np marker : String) : List String :=
  names.filter fun n => hasPfx np n && strLt marker n

/-- `conn.ObjectNames` (§6 ListObjectNames): ordered names matching the
prefix, strictly after the marker, limited to the given page size when
it is positive (the Go client omits the limit parameter when it is not
positive). -/
def objectNames (names : List String) (np marker : String) (limit : Int) :
    List String :=
  let t := tailAfter names np marker
  if limit ≤ 0 then t else t.take limit.toNat

/-- The parameters of a datastore query (`dsq.Query`): raw prefix,
offset, limit (0 means unbounded), keys-only flag, and whether filters
or orders were requested (both rejected by the source, line 121). -/
structure DsQuery where
  qPfx : String
  qOffset : Int
  qLimit : Int
  keysOnly : Bool
  hasFiltersOrOrders : Bool
deriving DecidableEq

/-- The mutable state captured by the iterator closures of `Query`:
`opts.Marker`, `opts.Limit`, the residual local skip (the mutable
variable named offset in the source), the emission counter, the
buffered names, the exhaustion flag, and the shared cursor cache. -/
structure QState where
  marker : String
  pageLimit : Int
  skip : Int
  count : Int
  names : List String
  doneFetching : Bool
  cache : Cache
deriving DecidableEq

/-- Outcome of the buffered-fetch loop (lines 161-192). `panicked`
marks the state, unreachable from `Query` entry states, in which the Go
code would index an empty page at line 179; `fuelOut` marks fuel
exhaustion of the model's driver. -/
inductive FetchOut where
  | fuelOut (st : QState)
  | panicked (st : QState)
  | finished (st : QState)
  | ready (st : QState)
deriving DecidableEq

/-- The fetch loop body (lines 161-192): while the buffer is empty or
skip remains, stop if exhausted, fetch one page, record exhaustion on a
short page, advance the marker to the page's last name, consume the
residual skip against the page, and append the remainder to the
buffer. -/
def fetchLoop (names : List String) (np : String) : Nat → QState → FetchOut
  | 0, st => .fuelOut st
  | fuel + 1, st =>
    if st.names = [] ∨ 0 < st.skip then
      if st.doneFetching then .finished st
      else
        let newNames := objectNames names np st.marker st.pageLimit
        let newLen : Int := Int.ofNat newNames.length
        let st₁ := if newLen < st.pageLimit then { st with doneFetching := true } else st
        if hN : newNames = [] then
          if st.names = [] then .finished st₁ else .panicked st₁
        else
          let marker' := newNames.getLast hN
          let adj :=
            if 0 < st.skip then
              if st.skip < newLen then (newNames.drop st.skip.toNat, (0 : Int))
              else (([] : List String), st.skip - newLen)
            else (newNames, st.skip)
          let st₂ := { st₁ with marker := marker', skip := adj.2, names := st.names ++ adj.1 }
          fetchLoop names np fuel st₂
    else .ready st

/-- Sufficient fuel for `fetchLoop` from a given state: one more than
the number of names the listing can still return. -/
def fetchFuel (names : List String) (np : String) (st : QState) : Nat :=
  (tailAfter names np st.marker).length + 1

/-- One entry produced by the iterator: the storage name, the fetched
value (`none` for keys-only queries), whether this emission wrote the
cursor cache (line 204), and the value of `doneFetching` at emission
time. -/
structure Emit where
  name : String
  value : Option Bytes
  wrote : Bool
  doneAtEmit : Bool
deriving DecidableEq

/-- Outcome of one `Next` call (lines 156-223). -/
inductive StepOut where
  | emit (e : Emit) (st : QState)
  | finished (st : QState)
  | panicked (st : QState)
  | fuelOut (st : QState)
  | errored (st : QState)
deriving DecidableEq

/-- One `Next` call: stop at the limit, run the fetch loop, pop the
buffer head, shrink the page size for the tail quota (lines 199-201),
write the cursor cache when exhaustion is known or the non-zero limit
is reached (lines 203-210), and emit the entry, fetching its value
unless the query is keys-only. -/
def nextStep (store : Store) (q : DsQuery) (st : QState) : StepOut :=
  let np := keyToName q.qPfx
  if q.qLimit ≠ 0 ∧ st.count = q.qLimit then .finished st
  else
    match fetchLoop (storeNames store) np (fetchFuel (storeNames store) np st) st with
    | .fuelOut st' => .fuelOut st'
    | .panicked st' => .panicked st'
    | .finished st' => .finished st'
    | .ready st' =>
      match st'.names with
      | [] => .panicked st'
      | nm :: rest =>
        let count' := st'.count + 1
        let pl' :=
          if rest = [] ∧ count' < q.qLimit ∧ q.qLimit - count' < st'.pageLimit
          then q.qLimit - count' else st'.pageLimit
        let wrote : Bool := st'.doneFetching || decide (0 < q.qLimit ∧ count' = q.qLimit)
        let cache' := if wrote then (⟨np, q.qOffset + count', nm⟩ : Cache) else st'.cache
        let st'' := { st' with count := count', names := rest, pageLimit := pl', cache := cache' }
        if q.keysOnly then .emit ⟨nm, none, wrote, st'.doneFetching⟩ st''
        else
          match lookupVal store nm with
          | some v => .emit ⟨nm, some v, wrote, st'.doneFetching⟩ st''
          | none => .errored st''

/-- How a full iteration run ended. -/
inductive RunOut where
  | finished
  | panicked
  | fuelOut
  | errored
deriving DecidableEq

/-- A full iteration run: the emitted entries, how the run ended, and
the state (including the shared cursor cache) it ended in. -/
structure QueryRun where
  emits : List Emit
  out : RunOut
  final : QState
deriving DecidableEq

/-- Drive the iterator until it stops, collecting emissions. -/
def runQuery (store : Store) (q : DsQuery) : Nat → QState → QueryRun
  | 0, st => ⟨[], .fuelOut, st⟩
  | fuel + 1, st =>
    match nextStep store q st with
    | .finished st' => ⟨[], .finished, st'⟩
    | .panicked st' => ⟨[], .panicked, st'⟩
    | .fuelOut st' => ⟨[], .fuelOut, st'⟩
    | .errored st' => ⟨[], .errored, st'⟩
    | .emit e st' =>
      let r := runQuery store q fuel st'
      ⟨e :: r.emits, r.out, r.final⟩

/-- The iterator state `Query` builds before returning (lines 125-149):
normalized prefix, cache consultation (lines 133-138), and the initial
page limit of 10000 shrunk to offset+limit when a non-zero limit makes
that smaller (lines 140-143). -/
def startState (cache₀ : Cache) (q : DsQuery) : QState :=
  let np := keyToName q.qPfx
  let hit := cache₀.pfx = np ∧ cache₀.name ≠ "" ∧ cache₀.index ≤ q.qOffset
  let marker := if hit then cache₀.name else ""
  let skip := if hit then cache₀.index - q.qOffset else q.qOffset
  let pl : Int := if q.qLimit ≠ 0 ∧ skip + q.qLimit < 10000 then skip + q.qLimit else 10000
  ⟨marker, pl, skip, 0, [], false, cache₀⟩

/-- Sufficient fuel for a full run: buffered names plus listable tail,
plus one for the terminating step. -/
def queryFuel (store : Store) (q : DsQuery) (st : QState) : Nat :=
  st.names.length + (tailAfter (storeNames store) (keyToName q.qPfx) st.marker).length + 1

/-- A complete `Query` evaluation against a store, starting from a
given cursor-cache state, for queries without filters or orders. -/
def runQ (store : Store) (cache₀ : Cache) (q : DsQuery) : QueryRun :=
  let st := startState cache₀ q
  runQuery store q (queryFuel store q st) st

/-- `SwiftContainer.Query` itself: rejects filters and orders
synchronously (lines 121-123), otherwise hands back the iterator
run. -/
def swiftQuery (store : Store) (cache₀ : Cache) (q : DsQuery) :
    Except String QueryRun :=
  if q.hasFiltersOrOrders then .error "swiftds doesnt support filters or orders"
  else .ok (runQ store cache₀ q)

/-- The external keys of a run's entries, reconstructed by re-adding
the leading separator (line 212). -/
def emittedKeys (r : QueryRun) : List String :=
  r.emits.map fun e => "/" ++ e.name

/-- The iterator's `Close` (lines 152-155): release the buffered names;
nothing else changes and no error is returned. -/
def closeIter (st : QState) : Except String Unit × QState :=
  (.ok (), { st with names := [] })

/-! ## Concrete stores and helper projections used by the claims -/

/-- The six-key example store of the spec (and of the repo's own test
fixture): external keys `/a`, `/a/b`, `/a/b/c`, `/a/b/d`, `/a/c`, `/a/d`
with their values, stored under the stripped names in ascending
order. -/
def demoStore : Store :=
  [("a", [97]), ("a/b", [97, 98]), ("a/b/c", [97, 98, 99]),
   ("a/b/d", [97, 47, 98, 47, 100]), ("a/c", [97, 99]), ("a/d", [97, 100])]

/-- A four-object store used to exhibit cache behaviour at listing
exhaustion. -/
def store4 : Store := [("a/1", [49]), ("a/2", [50]), ("a/3", [51]), ("a/4", [52])]

/-- A two-object store used to exhibit early-abandonment behaviour. -/
def store2 : Store := [("a/1", [49]), ("a/2", [50])]

/-- A three-object store used as a pagination witness. -/
def demoStore3 : Store := [("a/1", [49]), ("a/2", [50]), ("a/3", [51])]

/-- An unbounded full-prefix query over `/a/`. -/
def qAll : DsQuery := ⟨"/a/", 0, 0, false, false⟩

/-- The state the fetch loop leaves behind, whatever its outcome. -/
def fetchState : FetchOut → QState
  | .fuelOut st => st
  | .panicked st => st
  | .finished st => st
  | .ready st => st

/-- The state a step leaves behind, whatever its outcome. -/
def stepState : StepOut → QState
  | .emit _ st => st
  | .finished st => st
  | .panicked st => st
  | .fuelOut st => st
  | .errored st => st

/-- The entry a step emitted, if any. -/
def stepEmit? : StepOut → Option Emit
  | .emit e _ => some e
  | _ => none

/-- The cursor-cache value a finished run must leave according to the
source's write discipline: untouched when nothing was emitted or the
final emission did not write (line 204's condition false there), and
exactly (normalized prefix, caller offset + total count, last emitted
name) when it did. -/
def expectedCache (q : DsQuery) (st : QState) (r : QueryRun) : Cache :=
  match r.emits.getLast? with
  | none => st.cache
  | some e =>
    if e.wrote then ⟨keyToName q.qPfx, q.qOffset + st.count + (r.emits.length : Int), e.name⟩
    else st.cache

/-- The final emission's `wrote` flag agrees with the source's write
condition: exhaustion already detected at that emission, or the
non-zero limit reached by it. -/
def lastWroteCond (q : DsQuery) (st : QState) (r : QueryRun) : Prop :=
  match r.emits.getLast? with
  | none => True
  | some e =>
    e.wrote = (e.doneAtEmit || decide (0 < q.qLimit ∧ st.count + (r.emits.length : Int) = q.qLimit))

/-- A container's name listing is strictly ascending in the swift
listing order: every name sorts strictly before every later one. -/
abbrev SortedNames (l : List String) : Prop :=
  List.Pairwise (fun a b => strLt a b = true) l

/-! ## Claim theorems -/

/-- Claim C4: on the six-key example store with an empty cursor cache,
Query(prefix "/a/", offset 2, limit 2) returns exactly the keys /a/b/d
and /a/c and leaves the cache at (prefix "a/", index 4, name "a/c"); a
following Query(prefix "/a/", offset 4, limit 2) returns exactly the
key /a/d. -/
theorem c4_example_scenario :
    emittedKeys (runQ demoStore Cache.empty ⟨"/a/", 2, 2, false, false⟩) = ["/a/b/d", "/a/c"] ∧
    (runQ demoStore Cache.empty ⟨"/a/", 2, 2, false, false⟩).out = .finished ∧
    (runQ demoStore Cache.empty ⟨"/a/", 2, 2, false, false⟩).final.cache = ⟨"a/", 4, "a/c"⟩ ∧
    emittedKeys (runQ demoStore ⟨"a/", 4, "a/c"⟩ ⟨"/a/", 4, 2, false, false⟩) = ["/a/d"] ∧
    (runQ demoStore ⟨"a/", 4, "a/c"⟩ ⟨"/a/", 4, 2, false, false⟩).out = .finished := by
  decide

/-- Claim C1 (code bug): with the cursor cache holding (prefix "a/",
index 1, name "a/b") — the exact state a previous Query(offset 0,
limit 1) leaves — a Query(prefix "/a/", offset 2, unbounded) resumes
from the marker but locally skips `cachedIndex − requestedOffset`
(clamped to nothing, since that is negative) instead of the claimed
`requestedOffset − cachedIndex` entries: it emits /a/b/c, /a/b/d, /a/c,
/a/d, whereas the same query with the cache absent emits /a/b/d, /a/c,
/a/d.  The emitted entries are therefore not the same as if the cache
were absent, contradicting the claim at this input. -/
theorem c1_cached_resume_bug :
    (runQ demoStore Cache.empty ⟨"/a/", 0, 1, false, false⟩).final.cache = ⟨"a/", 1, "a/b"⟩ ∧
    emittedKeys (runQ demoStore ⟨"a/", 1, "a/b"⟩ ⟨"/a/", 2, 0, false, false⟩) =
      ["/a/b/c", "/a/b/d", "/a/c", "/a/d"] ∧
    emittedKeys (runQ demoStore Cache.empty ⟨"/a/", 2, 0, false, false⟩) =
      ["/a/b/d", "/a/c", "/a/d"] ∧
    emittedKeys (runQ demoStore ⟨"a/", 1, "a/b"⟩ ⟨"/a/", 2, 0, false, false⟩) ≠
      emittedKeys (runQ demoStore Cache.empty ⟨"/a/", 2, 0, false, false⟩) := by
  decide

/-- Claim C5 (counterexample): on a two-object store, the consumer
reads one entry of an unbounded query (the full run would emit two) and
then closes the iterator; the cursor cache at that point is
(prefix "a/", index 1, name "a/1"), not the empty value it held when
the query began — closing performs no further write, but the cache does
not retain its initial value on early abandonment. -/
theorem c5_abandon_counterexample :
    stepEmit? (nextStep store2 qAll (startState Cache.empty qAll)) =
      some ⟨"a/1", some [49], true, true⟩ ∧
    (closeIter (stepState (nextStep store2 qAll (startState Cache.empty qAll)))).2.cache =
      ⟨"a/", 1, "a/1"⟩ ∧
    (⟨"a/", 1, "a/1"⟩ : Cache) ≠ (startState Cache.empty qAll).cache ∧
    (runQ store2 Cache.empty qAll).emits.length = 2 := by
  decide

/-- Claim C5 (amended): closing the result sequence releases the
buffered names and performs no other effect itself — every other state
component, the cursor cache included, is exactly what it was when Close
was called, and no error is returned; the cache may however already
reflect writes made by emissions consumed before abandonment. -/
theorem c5_close_frame (st : QState) :
    (closeIter st).1 = .ok () ∧
    (closeIter st).2.names = [] ∧
    (closeIter st).2.cache = st.cache ∧
    (closeIter st).2.marker = st.marker ∧
    (closeIter st).2.pageLimit = st.pageLimit ∧
    (closeIter st).2.skip = st.skip ∧
    (closeIter st).2.count = st.count ∧
    (closeIter st).2.doneFetching = st.doneFetching := by
  simp [closeIter]

/-- Claim C9: GetSize returns the reported byte count when the object
exists and the count is at most the platform's maximum int, the typed
not-found error when the key is absent, and the explicit overflow error
(never a truncated value) when the reported size exceeds the maximum
int computed from the platform word width. -/
theorem c9_getsize (uintBits : Nat) (container k : String) (bytes : Int) (e : String) :
    (containerGetSize uintBits container k .notFound).1 = .error .notFound ∧
    (containerGetSize uintBits container k (.err e)).1 = .error (.upstream e) ∧
    (bytes ≤ maxIntGo uintBits → (containerGetSize uintBits container k (.ok bytes)).1 = .ok bytes) ∧
    (maxIntGo uintBits < bytes →
      (containerGetSize uintBits container k (.ok bytes)).1 = .error .overflow) := by
  refine ⟨rfl, rfl, fun h => ?_, fun h => ?_⟩
  · simp [containerGetSize, not_lt.mpr h]
  · simp [containerGetSize, h]

/-- Witness for C9 at concrete inputs: a 5-byte object on a 64-bit
platform, and an object of 2^31 bytes on a 32-bit platform. -/
theorem c9_getsize_witness :
    ((5 : Int) ≤ maxIntGo 64 ∧ (containerGetSize 64 "c" "/k" (.ok 5)).1 = .ok 5) ∧
    (maxIntGo 32 < (2 : Int) ^ 31 ∧
      (containerGetSize 32 "c" "/k" (.ok (2 ^ 31))).1 = .error .overflow) :=
  ⟨⟨by decide, (c9_getsize 64 "c" "/k" 5 "").2.2.1 (by decide)⟩,
   ⟨by decide, (c9_getsize 32 "c" "/k" (2 ^ 31) "").2.2.2 (by decide)⟩⟩

/-- Claim C10: top-level Put and Delete invalidate the cursor cache
(clearing its marker name) and the invalidation precedes the network
call in the issued-call order; the cleared cache does not depend on the
network outcome, so it is cleared even when the put or delete fails. -/
theorem c10_invalidate_unconditional (cache : Cache) (container k : String)
    (v : Bytes) (n : NetResult) (e : String) :
    (containerPut cache container k v n).2.1 = cache.invalidate ∧
    (containerPut cache container k v n).2.1.name = "" ∧
    (containerPut cache container k v n).2.2 =
      [.invalidate, .objectPut container (keyToName k) v "application/octet-stream"] ∧
    (containerPut cache container k v (.err e)).1 = .error (.upstream e) ∧
    (containerPut cache container k v (.err e)).2.1.name = "" ∧
    (containerDelete cache container k n).2.1 = cache.invalidate ∧
    (containerDelete cache container k n).2.1.name = "" ∧
    (containerDelete cache container k n).2.2 =
      [.invalidate, .objectDelete container (keyToName k)] ∧
    (containerDelete cache container k (.err e)).1 = .error (.upstream e) ∧
    (containerDelete cache container k (.err e)).2.1.name = "" := by
  exact ⟨rfl, rfl, rfl, rfl, rfl, rfl, rfl, rfl, rfl, rfl⟩

/-- Claim C8: batch Put and Delete perform no network calls — Put
appends one archive record carrying the record name, the exact byte
length and the value bytes, Delete appends the storage-normalized name
— and committing a batch in which nothing was accumulated issues zero
bulk calls (only the cache invalidation) and returns success. -/
theorem c8_batch_pure (b : SwiftBatch) (k : String) (v : Bytes)
    (cache : Cache) (container : String) (up del : NetResult) :
    (batchPut b k v).2 = [] ∧
    (batchPut b k v).1.tarRecords =
      some ((b.tarRecords.getD []) ++ [⟨tarTypeReg, k, Int.ofNat v.length, v⟩]) ∧
    (batchPut b k v).1.delKeys = b.delKeys ∧
    (batchDelete b k).2 = [] ∧
    (batchDelete b k).1.delKeys = b.delKeys ++ [keyToName k] ∧
    (batchDelete b k).1.tarRecords = b.tarRecords ∧
    batchCommit cache SwiftBatch.fresh container up del =
      (.ok (), cache.invalidate, [.invalidate]) := by
  exact ⟨rfl, rfl, rfl, rfl, rfl, rfl, rfl⟩

theorem foldl_applyOp_tarRecords (ops : List BatchOp) :
    ∀ b : SwiftBatch, (ops.foldl applyOp b).tarRecords = none ↔
      b.tarRecords = none ∧ hasPut ops = false := by
  induction ops with
  | nil => intro b; simp [hasPut]
  | cons op rest ih =>
    intro b
    cases op with
    | put k v =>
      rw [List.foldl_cons, ih]
      simp [applyOp, batchPut, hasPut]
    | del k =>
      rw [List.foldl_cons, ih]
      simp [applyOp, batchDelete, hasPut, List.any_cons]

theorem foldl_applyOp_delKeys (ops : List BatchOp) :
    ∀ b : SwiftBatch, (ops.foldl applyOp b).delKeys = [] ↔
      b.delKeys = [] ∧ hasDel ops = false := by
  induction ops with
  | nil => intro b; simp [hasDel]
  | cons op rest ih =>
    intro b
    cases op with
    | put k v =>
      rw [List.foldl_cons, ih]
      simp [applyOp, batchPut, hasDel, List.any_cons]
    | del k =>
      rw [List.foldl_cons, ih]
      simp [applyOp, batchDelete, hasDel, List.any_cons]

theorem applyOps_tarRecords_none (ops : List BatchOp) :
    (applyOps ops).tarRecords = none ↔ hasPut ops = false := by
  rw [applyOps, foldl_applyOp_tarRecords]
  simp [SwiftBatch.fresh]

theorem applyOps_delKeys_nil (ops : List BatchOp) :
    (applyOps ops).delKeys = [] ↔ hasDel ops = false := by
  rw [applyOps, foldl_applyOp_delKeys]
  simp [SwiftBatch.fresh]

/-- Claim C6: committing a batch built from a sequence of buffered
operations first invalidates the query cache (the invalidation heads
the issued-call order), then issues exactly one bulk upload iff at
least one Put was buffered; when the upload is not needed or succeeds,
it issues exactly one bulk delete iff at least one Delete was buffered;
and when the bulk upload fails, Commit surfaces that error and no bulk
delete is issued. -/
theorem c6_commit_protocol (ops : List BatchOp) (cache : Cache)
    (container : String) (up del : NetResult) (e : String) :
    ((batchCommit cache (applyOps ops) container up del).2.2.head? = some .invalidate) ∧
    ((batchCommit cache (applyOps ops) container up del).2.2.countP isBulkUpload =
      if hasPut ops then 1 else 0) ∧
    (hasPut ops = false ∨ up = .ok →
      (batchCommit cache (applyOps ops) container up del).2.2.countP isBulkDelete =
        if hasDel ops then 1 else 0) ∧
    (hasPut ops = true →
      (batchCommit cache (applyOps ops) container (.err e) del).1 = .error (.upstream e) ∧
      (batchCommit cache (applyOps ops) container (.err e) del).2.2.countP isBulkDelete = 0) := by
  have htar := applyOps_tarRecords_none ops
  have hdel := applyOps_delKeys_nil ops
  rcases htr : (applyOps ops).tarRecords with _ | recs
  · have hput : hasPut ops = false := htar.mp htr
    rcases hd : (applyOps ops).delKeys with _ | ⟨d, ds⟩
    · have hdf : hasDel ops = false := hdel.mp hd
      refine ⟨?_, ?_, fun _ => ?_, fun hc => ?_⟩ <;>
        simp [batchCommit, htr, hd, hput, hdf, List.countP_cons, isBulkUpload, isBulkDelete]
      exact absurd hc (by simp [hput])
    · have hdf : hasDel ops = true := by
        rcases h : hasDel ops with _ | _
        · exact absurd (hdel.mpr h) (by simp [hd])
        · rfl
      refine ⟨?_, ?_, fun _ => ?_, fun hc => ?_⟩
      · cases del <;> simp [batchCommit, htr, hd]
      · cases del <;>
          simp [batchCommit, htr, hd, hput, List.countP_cons, isBulkUpload, isBulkDelete]
      · cases del <;>
          simp [batchCommit, htr, hd, hdf, List.countP_cons, isBulkUpload, isBulkDelete]
      · exact absurd hc (by simp [hput])
  · have hput : hasPut ops = true := by
      rcases h : hasPut ops with _ | _
      · exact absurd (htar.mpr h) (by simp [htr])
      · rfl
    rcases hd : (applyOps ops).delKeys with _ | ⟨d, ds⟩
    · have hdf : hasDel ops = false := hdel.mp hd
      refine ⟨?_, ?_, fun hu => ?_, fun _ => ?_⟩
      · cases up <;> simp [batchCommit, htr, hd]
      · cases up <;>
          simp [batchCommit, htr, hd, hput, List.countP_cons, isBulkUpload, isBulkDelete]
      · cases up <;>
          simp [batchCommit, htr, hd, hdf, List.countP_cons, isBulkUpload, isBulkDelete]
      · constructor <;>
          simp [batchCommit, htr, hd, List.countP_cons, isBulkUpload, isBulkDelete]
    · have hdf : hasDel ops = true := by
        rcases h : hasDel ops with _ | _
        · exact absurd (hdel.mpr h) (by simp [hd])
        · rfl
      refine ⟨?_, ?_, fun hu => ?_, fun _ => ?_⟩
      · cases up <;> cases del <;> simp [batchCommit, htr, hd]
      · cases up <;> cases del <;>
          simp [batchCommit, htr, hd, hput, List.countP_cons, isBulkUpload, isBulkDelete]
      · rcases hu with hu | hu
        · exact absurd hput (by simp [hu])
        · subst hu
          cases del <;>
            simp [batchCommit, htr, hd, hdf, List.countP_cons, isBulkUpload, isBulkDelete]
      · constructor <;>
          simp [batchCommit, htr, hd, List.countP_cons, isBulkUpload, isBulkDelete]

/-- Witness for C6: a batch with one put and one delete, committed with
a failing upload: the error surfaces and no bulk delete is issued; and
the same batch committed with a successful upload issues exactly one
upload and one delete. -/
theorem c6_commit_protocol_witness :
    ((batchCommit Cache.empty (applyOps [.put "/k" [1], .del "/j"]) "c" .ok .ok).2.2.head? =
      some .invalidate) ∧
    ((batchCommit Cache.empty (applyOps [.put "/k" [1], .del "/j"]) "c" .ok .ok).2.2.countP
      isBulkUpload = 1) ∧
    ((batchCommit Cache.empty (applyOps [.put "/k" [1], .del "/j"]) "c" .ok .ok).2.2.countP
      isBulkDelete = 1) ∧
    ((batchCommit Cache.empty (applyOps [.put "/k" [1], .del "/j"]) "c" (.err "boom") .ok).1 =
      .error (.upstream "boom")) ∧
    ((batchCommit Cache.empty (applyOps [.put "/k" [1], .del "/j"]) "c" (.err "boom") .ok).2.2.countP
      isBulkDelete = 0) := by
  have h := c6_commit_protocol [.put "/k" [1], .del "/j"] Cache.empty "c" .ok .ok "boom"
  refine ⟨h.1, ?_, ?_, (h.2.2.2 (by decide)).1, (h.2.2.2 (by decide)).2⟩
  · have := h.2.1
    simpa using this
  · have := h.2.2.1 (Or.inr rfl)
    simpa using this

theorem keyToName_slash_append (nm : String) : keyToName ("/" ++ nm) = nm := by
  cases nm with
  | mk l => rfl

theorem slash_append_keyToName (k : String) (h : hasPfx "/" k = true) :
    "/" ++ keyToName k = k := by
  cases k with
  | mk l =>
    cases l with
    | nil => simp [hasPfx, List.isPrefixOf] at h
    | cons c cs =>
      have hc : c = '/' := by
        simp [hasPfx, List.isPrefixOf] at h
        exact h.symm
      subst hc
      rfl

/-- Claim C7 (counterexample): batch Put records the key's full
external string, not the stripped storage name: putting key `/a` into a
fresh batch produces an archive record named `/a`, while the storage
representation of that key is `a`. -/
theorem c7_batch_put_name_counterexample :
    (batchPut SwiftBatch.fresh "/a" []).1.tarRecords = some [⟨tarTypeReg, "/a", 0, []⟩] ∧
    keyToName "/a" = "a" ∧
    ("/a" : String) ≠ "a" := by
  decide

/-- Claim C7 (amended): every per-key boundary applies the documented
bijection — Get, Put, Delete, Has, GetSize and batch Delete pass the
stripped storage name to the object store, and Query reconstructs
emitted keys by re-adding the leading separator (stripping which
recovers the listed name) — while batch Put's archive records carry the
key's full external string (leading separator retained), relying on the
bulk endpoint's own normalization. -/
theorem c7_key_representation (cache : Cache) (container k nm : String) (v : Bytes)
    (g : GetResult) (n : NetResult) (s : StatResult) (b : SwiftBatch)
    (uintBits : Nat) (r : QueryRun) (hk : hasPfx "/" k = true) :
    (containerGet container k g).2 = [.objectGet container (keyToName k)] ∧
    (containerPut cache container k v n).2.2 =
      [.invalidate, .objectPut container (keyToName k) v "application/octet-stream"] ∧
    (containerDelete cache container k n).2.2 =
      [.invalidate, .objectDelete container (keyToName k)] ∧
    (containerHas container k s).2 = [.objectStat container (keyToName k)] ∧
    (containerGetSize uintBits container k s).2 = [.objectStat container (keyToName k)] ∧
    (batchDelete b k).1.delKeys = b.delKeys ++ [keyToName k] ∧
    (batchPut b k v).1.tarRecords =
      some ((b.tarRecords.getD []) ++ [⟨tarTypeReg, k, Int.ofNat v.length, v⟩]) ∧
    emittedKeys r = r.emits.map (fun x => "/" ++ x.name) ∧
    keyToName ("/" ++ nm) = nm ∧
    "/" ++ keyToName k = k := by
  exact ⟨rfl, rfl, rfl, rfl, rfl, rfl, rfl, rfl,
    keyToName_slash_append nm, slash_append_keyToName k hk⟩

/-- Witness for C7 at a concrete key. -/
theorem c7_key_representation_witness :
    hasPfx "/" "/a/b" = true ∧
    keyToName ("/" ++ "x") = "x" ∧
    "/" ++ keyToName "/a/b" = "/a/b" :=
  ⟨by decide,
   (c7_key_representation Cache.empty "c" "/a/b" "x" [] (.ok []) .ok (.ok 0)
      SwiftBatch.fresh 64 ⟨[], .finished, startState Cache.empty qAll⟩ (by decide)).2.2.2.2.2.2.2.2.1,
   (c7_key_representation Cache.empty "c" "/a/b" "x" [] (.ok []) .ok (.ok 0)
      SwiftBatch.fresh 64 ⟨[], .finished, startState Cache.empty qAll⟩ (by decide)).2.2.2.2.2.2.2.2.2⟩

theorem fetchLoop_cache_count (names : List String) (np : String) :
    ∀ (fuel : Nat) (st : QState),
      (fetchState (fetchLoop names np fuel st)).cache = st.cache ∧
      (fetchState (fetchLoop names np fuel st)).count = st.count := by
  intro fuel
  induction fuel with
  | zero => intro st; exact ⟨rfl, rfl⟩
  | succ n ih =>
    intro st
    simp only [fetchLoop]
    split
    · split
      · exact ⟨rfl, rfl⟩
      · split
        · split <;> constructor <;> simp only [fetchState] <;> split <;> rfl
        · refine ⟨(ih _).1.trans ?_, (ih _).2.trans ?_⟩ <;> split <;> rfl
    · exact ⟨rfl, rfl⟩

theorem fetchLoop_done_id (names : List String) (np : String) (fuel : Nat) (st : QState)
    (h : st.doneFetching = true) :
    fetchLoop names np fuel st = .fuelOut st ∨ fetchLoop names np fuel st = .finished st ∨
      fetchLoop names np fuel st = .ready st := by
  cases fuel with
  | zero => exact Or.inl rfl
  | succ n =>
    simp only [fetchLoop]
    split
    · simp [h]
    · simp

theorem nextStep_at_limit (store : Store) (q : DsQuery) (st : QState)
    (h1 : q.qLimit ≠ 0) (h2 : st.count = q.qLimit) :
    nextStep store q st = .finished st := by
  simp [nextStep, h1, h2]

theorem nextStep_emit_spec (store : Store) (q : DsQuery) (st : QState) (e : Emit)
    (st'' : QState) (h : nextStep store q st = .emit e st'') :
    st''.cache = (if e.wrote then
        (⟨keyToName q.qPfx, q.qOffset + (st.count + 1), e.name⟩ : Cache) else st.cache) ∧
    st''.count = st.count + 1 ∧
    e.wrote = (e.doneAtEmit || decide (0 < q.qLimit ∧ st.count + 1 = q.qLimit)) ∧
    st''.doneFetching = e.doneAtEmit := by
  by_cases hlim : q.qLimit ≠ 0 ∧ st.count = q.qLimit
  · rw [nextStep_at_limit store q st hlim.1 hlim.2] at h
    exact absurd h (by simp)
  · cases hfetch : fetchLoop (storeNames store) (keyToName q.qPfx)
        (fetchFuel (storeNames store) (keyToName q.qPfx) st) st with
    | fuelOut s =>
      simp only [nextStep, if_neg hlim, hfetch] at h
      exact absurd h (by simp)
    | panicked s =>
      simp only [nextStep, if_neg hlim, hfetch] at h
      exact absurd h (by simp)
    | finished s =>
      simp only [nextStep, if_neg hlim, hfetch] at h
      exact absurd h (by simp)
    | ready st' =>
      simp only [nextStep, if_neg hlim, hfetch] at h
      have hpre := fetchLoop_cache_count (storeNames store) (keyToName q.qPfx)
        (fetchFuel (storeNames store) (keyToName q.qPfx) st) st
      rw [hfetch] at hpre
      simp only [fetchState] at hpre
      cases hnames : st'.names with
      | nil =>
        simp only [hnames] at h
        exact absurd h (by simp)
      | cons nm rest =>
        simp only [hnames] at h
        by_cases hko : q.keysOnly = true
        · rw [if_pos hko] at h
          cases h
          refine ⟨?_, ?_, ?_, rfl⟩
          · simp only [hpre.1, hpre.2]
          · simp [hpre.2]
          · simp [hpre.2]
        · rw [if_neg hko] at h
          cases hlv : lookupVal store nm with
          | some v =>
            simp only [hlv] at h
            cases h
            refine ⟨?_, ?_, ?_, rfl⟩
            · simp only [hpre.1, hpre.2]
            · simp [hpre.2]
            · simp [hpre.2]
          | none =>
            simp only [hlv] at h
            exact absurd h (by simp)

theorem nextStep_finished_spec (store : Store) (q : DsQuery) (st : QState)
    (stf : QState) (h : nextStep store q st = .finished stf) :
    stf.cache = st.cache ∧ stf.count = st.count := by
  by_cases hlim : q.qLimit ≠ 0 ∧ st.count = q.qLimit
  · rw [nextStep_at_limit store q st hlim.1 hlim.2] at h
    cases h
    exact ⟨rfl, rfl⟩
  · cases hfetch : fetchLoop (storeNames store) (keyToName q.qPfx)
        (fetchFuel (storeNames store) (keyToName q.qPfx) st) st with
    | fuelOut s =>
      simp only [nextStep, if_neg hlim, hfetch] at h
      exact absurd h (by simp)
    | panicked s =>
      simp only [nextStep, if_neg hlim, hfetch] at h
      exact absurd h (by simp)
    | finished s =>
      simp only [nextStep, if_neg hlim, hfetch] at h
      have hpre := fetchLoop_cache_count (storeNames store) (keyToName q.qPfx)
        (fetchFuel (storeNames store) (keyToName q.qPfx) st) st
      rw [hfetch] at hpre
      cases h
      exact hpre
    | ready st' =>
      simp only [nextStep, if_neg hlim, hfetch] at h
      cases hnames : st'.names with
      | nil =>
        simp only [hnames] at h
        exact absurd h (by simp)
      | cons nm rest =>
        simp only [hnames] at h
        by_cases hko : q.keysOnly = true
        · rw [if_pos hko] at h
          exact absurd h (by simp)
        · rw [if_neg hko] at h
          cases hlv : lookupVal store nm with
          | some v =>
            simp only [hlv] at h
            exact absurd h (by simp)
          | none =>
            simp only [hlv] at h
            exact absurd h (by simp)

theorem nextStep_emit_done (store : Store) (q : DsQuery) (st : QState) (e : Emit)
    (st'' : QState) (hd : st.doneFetching = true) (h : nextStep store q st = .emit e st'') :
    e.doneAtEmit = true ∧ st''.doneFetching = true := by
  by_cases hlim : q.qLimit ≠ 0 ∧ st.count = q.qLimit
  · rw [nextStep_at_limit store q st hlim.1 hlim.2] at h
    exact absurd h (by simp)
  · have hid := fetchLoop_done_id (storeNames store) (keyToName q.qPfx)
      (fetchFuel (storeNames store) (keyToName q.qPfx) st) st hd
    rcases hid with hid | hid | hid
    · simp only [nextStep, if_neg hlim, hid] at h
      exact absurd h (by simp)
    · simp only [nextStep, if_neg hlim, hid] at h
      exact absurd h (by simp)
    · simp only [nextStep, if_neg hlim, hid] at h
      cases hnames : st.names with
      | nil =>
        simp only [hnames] at h
        exact absurd h (by simp)
      | cons nm rest =>
        simp only [hnames] at h
        by_cases hko : q.keysOnly = true
        · rw [if_pos hko] at h
          cases h
          exact ⟨hd, hd⟩
        · rw [if_neg hko] at h
          cases hlv : lookupVal store nm with
          | some v =>
            simp only [hlv] at h
            cases h
            exact ⟨hd, hd⟩
          | none =>
            simp only [hlv] at h
            exact absurd h (by simp)

theorem runQuery_done_mono (store : Store) (q : DsQuery) :
    ∀ (fuel : Nat) (st : QState), st.doneFetching = true →
      ∀ x ∈ (runQuery store q fuel st).emits, x.doneAtEmit = true := by
  intro fuel
  induction fuel with
  | zero => intro st _ x hx; simp [runQuery] at hx
  | succ n ih =>
    intro st hd x hx
    cases hstep : nextStep store q st with
    | finished st' => rw [runQuery, hstep] at hx; simp at hx
    | panicked st' => rw [runQuery, hstep] at hx; simp at hx
    | fuelOut st' => rw [runQuery, hstep] at hx; simp at hx
    | errored st' => rw [runQuery, hstep] at hx; simp at hx
    | emit e st'' =>
      rw [runQuery, hstep] at hx
      simp at hx
      have hed := nextStep_emit_done store q st e st'' hd hstep
      rcases hx with hx | hx
      · rw [hx]; exact hed.1
      · exact ih st'' hed.2 x hx

theorem expectedCache_none (q : DsQuery) (st : QState) (r : QueryRun)
    (h : r.emits.getLast? = none) : expectedCache q st r = st.cache := by
  simp [expectedCache, h]

theorem expectedCache_some (q : DsQuery) (st : QState) (r : QueryRun) (e : Emit)
    (h : r.emits.getLast? = some e) :
    expectedCache q st r = (if e.wrote then
      (⟨keyToName q.qPfx, q.qOffset + st.count + (r.emits.length : Int), e.name⟩ : Cache)
      else st.cache) := by
  simp [expectedCache, h]

theorem lastWroteCond_none (q : DsQuery) (st : QState) (r : QueryRun)
    (h : r.emits.getLast? = none) : lastWroteCond q st r := by
  simp [lastWroteCond, h]

theorem lastWroteCond_some (q : DsQuery) (st : QState) (r : QueryRun) (e : Emit)
    (h : r.emits.getLast? = some e) :
    lastWroteCond q st r ↔
      e.wrote = (e.doneAtEmit ||
        decide (0 < q.qLimit ∧ st.count + (r.emits.length : Int) = q.qLimit)) := by
  simp [lastWroteCond, h]

theorem runQuery_cache_discipline (store : Store) (q : DsQuery) :
    ∀ (fuel : Nat) (st : QState),
      (runQuery store q fuel st).out = .finished →
      (runQuery store q fuel st).final.cache = expectedCache q st (runQuery store q fuel st) ∧
      lastWroteCond q st (runQuery store q fuel st) := by
  intro fuel
  induction fuel with
  | zero => intro st h; exact absurd h (by simp [runQuery])
  | succ n ih =>
    intro st hout
    cases hstep : nextStep store q st with
    | panicked st' => rw [runQuery, hstep] at hout; exact absurd hout (by simp)
    | fuelOut st' => rw [runQuery, hstep] at hout; exact absurd hout (by simp)
    | errored st' => rw [runQuery, hstep] at hout; exact absurd hout (by simp)
    | finished st' =>
      rw [runQuery, hstep]
      refine ⟨?_, lastWroteCond_none q st ⟨[], .finished, st'⟩ rfl⟩
      rw [expectedCache_none q st ⟨[], .finished, st'⟩ rfl]
      exact (nextStep_finished_spec store q st st' hstep).1
    | emit e st'' =>
      rw [runQuery, hstep] at hout ⊢
      simp only at hout ⊢
      obtain ⟨hc, hcnt, hw, hdf⟩ := nextStep_emit_spec store q st e st'' hstep
      have ihh := ih st'' hout
      cases hes : (runQuery store q n st'').emits with
      | nil =>
        have h1 : (runQuery store q n st'').final.cache = st''.cache :=
          ihh.1.trans (expectedCache_none q st'' _ (by rw [hes]; rfl))
        constructor
        · rw [expectedCache_some q st _ e (by simp)]
          rw [h1, hc]
          by_cases hew : e.wrote = true
          · simp only [hew, if_true]
            congr 1
            simp
            ring
          · rw [Bool.not_eq_true] at hew
            simp [hew]
        · rw [lastWroteCond_some q st _ e (by simp)]
          simpa using hw
      | cons e' es' =>
        have hne : (e' :: es') ≠ [] := by simp
        have hlast' : (runQuery store q n st'').emits.getLast? =
            some ((e' :: es').getLast hne) := by
          rw [hes]
          exact List.getLast?_eq_getLast _ hne
        have hmem : (e' :: es').getLast hne ∈ (runQuery store q n st'').emits := by
          rw [hes]
          exact List.getLast_mem hne
        have hec := expectedCache_some q st'' _ _ hlast'
        have hlw := (lastWroteCond_some q st'' _ _ hlast').mp ihh.2
        have hcombLast : (QueryRun.mk (e :: e' :: es') (runQuery store q n st'').out
            (runQuery store q n st'').final).emits.getLast? =
            some ((e' :: es').getLast hne) := by
          simp only [List.getLast?_cons_cons]
          exact List.getLast?_eq_getLast _ hne
        rw [hes] at hec hlw
        have harith : st.count + (((e :: e' :: es').length : Nat) : Int) =
            st''.count + (((e' :: es').length : Nat) : Int) := by
          rw [hcnt]
          simp only [List.length_cons]
          push_cast
          ring
        -- if the first emission wrote through exhaustion, so does the last;
        -- if it wrote by reaching the limit, there is no later emission
        have hkey : ((e' :: es').getLast hne).wrote = false → e.wrote = false := by
          intro hlwf
          by_contra hew
          rw [Bool.not_eq_false] at hew
          rw [hw] at hew
          rcases Bool.or_eq_true_iff.mp hew with hdone | hlim2
          · have hmono := runQuery_done_mono store q n st''
              (by rw [hdf]; exact hdone) _ hmem
            rw [hlw, hmono] at hlwf
            simp at hlwf
          · have hl := of_decide_eq_true hlim2
            have hfin := nextStep_at_limit store q st'' (by omega) (by omega)
            cases n with
            | zero => exact absurd hout (by simp [runQuery])
            | succ m =>
              rw [runQuery, hfin] at hes
              simp at hes
        constructor
        · rw [expectedCache_some q st _ _ hcombLast]
          rw [ihh.1, hec]
          by_cases hlw2 : ((e' :: es').getLast hne).wrote = true
          · simp only [hlw2, if_true]
            congr 1
            simp only [List.length_cons, hcnt]
            push_cast
            ring
          · rw [Bool.not_eq_true] at hlw2
            simp only [hlw2]
            simp only [Bool.false_eq_true, if_false]
            have hewf : e.wrote = false := hkey hlw2
            rw [hewf] at hc
            simpa using hc
        · rw [lastWroteCond_some q st _ _ hcombLast]
          rw [show (QueryRun.mk (e :: e' :: es') (runQuery store q n st'').out
              (runQuery store q n st'').final).emits.length = (e :: e' :: es').length from rfl]
          rw [harith]
          exact hlw


/-- Claim C3 (counterexample): starting from the cache state
(prefix "a/", index 1, name "a/1") — exactly what a previous
Query(offset 0, limit 1) leaves on the four-object store — a
Query(prefix "/a/", offset 3, limit 5) terminates by exhaustion having
emitted three entries, yet leaves the cache untouched at
(prefix "a/", index 1, name "a/1") instead of the claimed
(prefix "a/", index 3+3, name of last emitted entry): exhaustion is
discovered only by the empty page fetched after the final emission, so
the write at line 204 never fires. -/
theorem c3_exhaustion_counterexample :
    (runQ store4 Cache.empty ⟨"/a/", 0, 1, false, false⟩).final.cache = ⟨"a/", 1, "a/1"⟩ ∧
    (runQ store4 ⟨"a/", 1, "a/1"⟩ ⟨"/a/", 3, 5, false, false⟩).out = .finished ∧
    emittedKeys (runQ store4 ⟨"a/", 1, "a/1"⟩ ⟨"/a/", 3, 5, false, false⟩) =
      ["/a/2", "/a/3", "/a/4"] ∧
    (runQ store4 ⟨"a/", 1, "a/1"⟩ ⟨"/a/", 3, 5, false, false⟩).final.cache = ⟨"a/", 1, "a/1"⟩ ∧
    (⟨"a/", 1, "a/1"⟩ : Cache) ≠ ⟨"a/", 3 + 3, "a/4"⟩ := by
  decide

/-- Claim C3 (amended): after every query run that terminates normally,
the cursor cache holds exactly (normalized prefix, requested offset +
emitted count, last emitted storage name) whenever the final emission
wrote it — which happens iff at that emission exhaustion was already
detected or the non-zero limit was reached — and is untouched when
nothing was emitted or the final emission did not write (in particular
when exhaustion is only discovered at a page boundary after the final
emission). -/
theorem c3_cache_update (store : Store) (q : DsQuery) (cache₀ : Cache)
    (hout : (runQ store cache₀ q).out = .finished) :
    (runQ store cache₀ q).final.cache =
      expectedCache q (startState cache₀ q) (runQ store cache₀ q) ∧
    lastWroteCond q (startState cache₀ q) (runQ store cache₀ q) :=
  runQuery_cache_discipline store q
    (queryFuel store q (startState cache₀ q)) (startState cache₀ q) hout

/-- Witness for C3 (amended) on the example store: the bounded query
terminates normally and its cache obeys the write discipline. -/
theorem c3_cache_update_witness :
    (runQ demoStore Cache.empty ⟨"/a/", 2, 2, false, false⟩).out = .finished ∧
    ((runQ demoStore Cache.empty ⟨"/a/", 2, 2, false, false⟩).final.cache =
      expectedCache ⟨"/a/", 2, 2, false, false⟩
        (startState Cache.empty ⟨"/a/", 2, 2, false, false⟩)
        (runQ demoStore Cache.empty ⟨"/a/", 2, 2, false, false⟩) ∧
     lastWroteCond ⟨"/a/", 2, 2, false, false⟩
        (startState Cache.empty ⟨"/a/", 2, 2, false, false⟩)
        (runQ demoStore Cache.empty ⟨"/a/", 2, 2, false, false⟩)) :=
  ⟨by decide, c3_cache_update demoStore ⟨"/a/", 2, 2, false, false⟩ Cache.empty (by decide)⟩

theorem charLt_iff (a b : Char) : charLt a b = true ↔ a.toNat < b.toNat := by
  simp [charLt, Nat.blt]
  omega

theorem strLtAux_trans : ∀ (a b c : List Char), strLtAux a b = true →
    strLtAux b c = true → strLtAux a c = true := by
  intro a
  induction a with
  | nil =>
    intro b c hab hbc
    cases b with
    | nil => simp [strLtAux] at hab
    | cons y ys =>
      cases c with
      | nil => simp [strLtAux] at hbc
      | cons z zs => simp [strLtAux]
  | cons x xs ih =>
    intro b c hab hbc
    cases b with
    | nil => simp [strLtAux] at hab
    | cons y ys =>
      cases c with
      | nil => simp [strLtAux] at hbc
      | cons z zs =>
        simp only [strLtAux] at hab hbc ⊢
        by_cases hxy : charLt x y = true
        · by_cases hyz : charLt y z = true
          · have hxz : charLt x z = true := by
              rw [charLt_iff] at *
              omega
            simp [hxz]
          · by_cases hzy : charLt z y = true
            · simp [hyz, hzy] at hbc
            · have hxz : charLt x z = true := by
                rw [charLt_iff] at *
                omega
              simp [hxz]
        · by_cases hyx : charLt y x = true
          · simp [hxy, hyx] at hab
          · by_cases hyz : charLt y z = true
            · have hxz : charLt x z = true := by
                rw [charLt_iff] at *
                omega
              simp [hxz]
            · by_cases hzy : charLt z y = true
              · simp [hyz, hzy] at hbc
              · have hxz : ¬ charLt x z = true := by
                  rw [charLt_iff] at *
                  omega
                have hzx : ¬ charLt z x = true := by
                  rw [charLt_iff] at *
                  omega
                simp only [hxy, hyx, hxz, hzx, if_false, Bool.false_eq_true] at hab ⊢
                simp only [hyz, hzy, if_false, Bool.false_eq_true] at hbc
                exact ih ys zs hab hbc

theorem strLtAux_irrefl : ∀ (a : List Char), strLtAux a a = false := by
  intro a
  induction a with
  | nil => rfl
  | cons x xs ih =>
    simp only [strLtAux]
    have hxx : ¬ charLt x x = true := by
      rw [charLt_iff]
      omega
    simp [hxx, ih]

theorem strLt_trans {a b c : String} (hab : strLt a b = true) (hbc : strLt b c = true) :
    strLt a c = true :=
  strLtAux_trans a.data b.data c.data hab hbc

theorem strLt_irrefl (a : String) : strLt a a = false :=
  strLtAux_irrefl a.data

theorem strLt_asymm {a b : String} (hab : strLt a b = true) : ¬ strLt b a = true := by
  intro hba
  have := strLt_trans hab hba
  rw [strLt_irrefl] at this
  cases this

theorem strLt_ne {a b : String} (hab : strLt a b = true) : b ≠ a := by
  intro h
  subst h
  rw [strLt_irrefl] at hab
  cases hab

theorem mem_tailAfter {snames : List String} {np m x : String}
    (h : x ∈ tailAfter snames np m) :
    x ∈ snames ∧ hasPfx np x = true ∧ strLt m x = true := by
  have := List.mem_filter.mp h
  refine ⟨this.1, ?_, ?_⟩
  · exact (Bool.and_eq_true _ _ |>.mp this.2).1
  · exact (Bool.and_eq_true _ _ |>.mp this.2).2

theorem tailAfter_sorted {snames : List String} (np m : String)
    (hsort : SortedNames snames) : SortedNames (tailAfter snames np m) :=
  List.Pairwise.sublist (List.filter_sublist snames) hsort

theorem tailAfter_after (snames : List String) (np m x : String)
    (hmx : strLt m x = true) :
    tailAfter snames np x =
      (tailAfter snames np m).filter (fun n => strLt x n) := by
  unfold tailAfter
  rw [List.filter_filter]
  apply List.filter_congr
  intro n _
  cases hpx : hasPfx np n with
  | false => simp [hpx]
  | true =>
    cases hxn : strLt x n with
    | false => simp [hpx, hxn]
    | true =>
      have hmn : strLt m n = true := strLt_trans hmx hxn
      simp [hpx, hxn, hmn]

theorem sorted_getLast_max (l : List String)
    (hs : List.Pairwise (fun a b => strLt a b = true) l) (h : l ≠ []) :
    ∀ x ∈ l, x = l.getLast h ∨ strLt x (l.getLast h) = true := by
  induction l with
  | nil => cases h rfl
  | cons a t ih =>
    intro x hx
    cases t with
    | nil =>
      simp at hx
      subst hx
      left
      rfl
    | cons b t' =>
      rw [List.getLast_cons (by simp : b :: t' ≠ [])]
      rcases List.mem_cons.mp hx with hx | hx
      · subst hx
        right
        have hall : ∀ y ∈ b :: t', strLt x y = true := (List.pairwise_cons.mp hs).1
        exact hall _ (List.getLast_mem _)
      · exact ih (List.pairwise_cons.mp hs).2 (by simp) x hx

theorem tailAfter_split (snames : List String) (np m : String)
    (hsort : SortedNames snames) (pg sfx : List String)
    (hsplit : tailAfter snames np m = pg ++ sfx) (hne : pg ≠ []) :
    tailAfter snames np (pg.getLast hne) = sfx := by
  have hTs : SortedNames (tailAfter snames np m) := tailAfter_sorted np m hsort
  have hlastT : pg.getLast hne ∈ tailAfter snames np m := by
    rw [hsplit]
    exact List.mem_append_left sfx (List.getLast_mem hne)
  have hmlast : strLt m (pg.getLast hne) = true := (mem_tailAfter hlastT).2.2
  rw [tailAfter_after snames np m (pg.getLast hne) hmlast, hsplit, List.filter_append]
  rw [hsplit] at hTs
  have hpgS : List.Pairwise (fun a b => strLt a b = true) pg :=
    (List.pairwise_append.mp hTs).1
  have hcross : ∀ a ∈ pg, ∀ b ∈ sfx, strLt a b = true :=
    (List.pairwise_append.mp hTs).2.2
  have h1 : pg.filter (fun n => strLt (pg.getLast hne) n) = [] := by
    rw [List.filter_eq_nil_iff]
    intro a ha
    rcases sorted_getLast_max pg hpgS hne a ha with h | h
    · subst h
      simp [strLt_irrefl]
    · simp only [Bool.not_eq_true]
      rcases hlt : strLt (pg.getLast hne) a with _ | _
      · rfl
      · exact absurd hlt (strLt_asymm h)
  have h2 : sfx.filter (fun n => strLt (pg.getLast hne) n) = sfx := by
    rw [List.filter_eq_self]
    intro b hb
    exact hcross _ (List.getLast_mem hne) b hb
  rw [h1, h2, List.nil_append]

theorem objectNames_self_take (snames : List String) (np m : String) (pl : Int) :
    objectNames snames np m pl =
      (tailAfter snames np m).take (objectNames snames np m pl).length := by
  unfold objectNames
  by_cases hpl : pl ≤ 0
  · rw [if_pos hpl, List.take_length]
  · rw [if_neg hpl]
    by_cases hk : pl.toNat ≤ (tailAfter snames np m).length
    · rw [List.length_take, Nat.min_eq_left hk]
    · rw [List.take_of_length_le (by omega), List.take_length]

theorem objectNames_nil (snames : List String) (np m : String) (pl : Int)
    (h : objectNames snames np m pl = []) : tailAfter snames np m = [] := by
  unfold objectNames at h
  by_cases hpl : pl ≤ 0
  · rw [if_pos hpl] at h
    exact h
  · rw [if_neg hpl] at h
    rcases List.take_eq_nil_iff.mp h with h | h
    · omega
    · exact h

theorem objectNames_short (snames : List String) (np m : String) (pl : Int)
    (h : ((objectNames snames np m pl).length : Int) < pl) :
    (tailAfter snames np m).drop (objectNames snames np m pl).length = [] := by
  unfold objectNames at h ⊢
  by_cases hpl : pl ≤ 0
  · rw [if_pos hpl] at h
    omega
  · rw [if_neg hpl] at h ⊢
    rw [List.length_take] at h ⊢
    have hmin : min pl.toNat (tailAfter snames np m).length =
        (tailAfter snames np m).length := by
      omega
    rw [hmin, List.drop_length]

theorem fetchLoop_spec (snames : List String) (np : String)
    (hsort : SortedNames snames) :
    ∀ (fuel : Nat) (st : QState),
      (0 < st.skip → st.names = []) →
      (st.doneFetching = true → tailAfter snames np st.marker = []) →
      (tailAfter snames np st.marker).length + 1 ≤ fuel →
      ((st.names ++ tailAfter snames np st.marker).drop st.skip.toNat = [] →
        ∃ stf, fetchLoop snames np fuel st = .finished stf ∧
          stf.cache = st.cache ∧ stf.count = st.count) ∧
      (∀ nm rest, (st.names ++ tailAfter snames np st.marker).drop st.skip.toNat = nm :: rest →
        ∃ stf, fetchLoop snames np fuel st = .ready stf ∧
          stf.cache = st.cache ∧ stf.count = st.count ∧
          stf.skip ≤ 0 ∧
          stf.names ++ tailAfter snames np stf.marker = nm :: rest ∧
          stf.names ≠ [] ∧
          (stf.doneFetching = true → tailAfter snames np stf.marker = [])) := by
  intro fuel
  induction fuel with
  | zero =>
    intro st _ _ hfuel
    omega
  | succ f ihf =>
    intro st hInv1 hInv2 hfuel
    by_cases hguard : st.names = [] ∨ 0 < st.skip
    · have hnames0 : st.names = [] := by
        rcases hguard with h | h
        · exact h
        · exact hInv1 h
      by_cases hdone : st.doneFetching = true
      · have hT : tailAfter snames np st.marker = [] := hInv2 hdone
        have hred : fetchLoop snames np (f + 1) st = .finished st := by
          simp only [fetchLoop]
          rw [if_pos hguard, if_pos hdone]
        constructor
        · intro _
          exact ⟨st, hred, rfl, rfl⟩
        · intro nm rest h
          rw [hnames0, hT] at h
          simp at h
      · by_cases hN : objectNames snames np st.marker st.pageLimit = []
        · have hT : tailAfter snames np st.marker = [] :=
            objectNames_nil snames np st.marker st.pageLimit hN
          have hred : ∃ stf, fetchLoop snames np (f + 1) st = .finished stf ∧
              stf.cache = st.cache ∧ stf.count = st.count := by
            simp only [fetchLoop]
            rw [if_pos hguard, if_neg hdone, dif_pos hN, if_pos hnames0]
            refine ⟨_, rfl, ?_, ?_⟩ <;> split <;> rfl
          constructor
          · intro _
            exact hred
          · intro nm rest h
            rw [hnames0, hT] at h
            simp at h
        · -- a non-empty page is fetched
          set page := objectNames snames np st.marker st.pageLimit with hpagedef
          set T := tailAfter snames np st.marker with hTdef
          have hptake : page = T.take page.length :=
            objectNames_self_take snames np st.marker st.pageLimit
          have hsplitT : T = page ++ T.drop page.length := by
            conv_lhs => rw [← List.take_append_drop page.length T]
            rw [← hptake]
          have htail' : tailAfter snames np (page.getLast hN) = T.drop page.length :=
            tailAfter_split snames np st.marker hsort page (T.drop page.length) hsplitT hN
          have hplen : 1 ≤ page.length := by
            cases hp : page with
            | nil => exact absurd hp hN
            | cons a l => simp
          have hTlen : page.length + (T.drop page.length).length = T.length := by
            conv_rhs => rw [hsplitT]
            simp
          have hred : ∀ (adjNames : List String) (adjSkip : Int),
              fetchLoop snames np (f + 1) st = fetchLoop snames np f
                ⟨page.getLast hN,
                 (if ((page.length : Nat) : Int) < st.pageLimit then
                   { st with doneFetching := true } else st).pageLimit,
                 adjSkip,
                 (if ((page.length : Nat) : Int) < st.pageLimit then
                   { st with doneFetching := true } else st).count,
                 st.names ++ adjNames,
                 (if ((page.length : Nat) : Int) < st.pageLimit then
                   { st with doneFetching := true } else st).doneFetching,
                 (if ((page.length : Nat) : Int) < st.pageLimit then
                   { st with doneFetching := true } else st).cache⟩ →
              (0 < adjSkip → st.names ++ adjNames = []) →
              ((st.names ++ adjNames) ++ T.drop page.length).drop adjSkip.toNat =
                (st.names ++ T).drop st.skip.toNat →
              ((st.names ++ T).drop st.skip.toNat = [] →
                ∃ stf, fetchLoop snames np (f + 1) st = .finished stf ∧
                  stf.cache = st.cache ∧ stf.count = st.count) ∧
              (∀ nm rest, (st.names ++ T).drop st.skip.toNat = nm :: rest →
                ∃ stf, fetchLoop snames np (f + 1) st = .ready stf ∧
                  stf.cache = st.cache ∧ stf.count = st.count ∧
                  stf.skip ≤ 0 ∧
                  stf.names ++ tailAfter snames np stf.marker = nm :: rest ∧
                  stf.names ≠ [] ∧
                  (stf.doneFetching = true → tailAfter snames np stf.marker = [])) := by
            intro adjNames adjSkip hstep hinv1' hstream
            set st₁ := if ((page.length : Nat) : Int) < st.pageLimit then
              { st with doneFetching := true } else st with hst₁
            have hc₁ : st₁.cache = st.cache := by
              rw [hst₁]
              split <;> rfl
            have hn₁ : st₁.count = st.count := by
              rw [hst₁]
              split <;> rfl
            have hd₂ : st₁.doneFetching = true → T.drop page.length = [] := by
              intro hd₁
              rw [hst₁] at hd₁
              by_cases hlt : ((page.length : Nat) : Int) < st.pageLimit
              · exact objectNames_short snames np st.marker st.pageLimit hlt
              · rw [if_neg hlt] at hd₁
                have h0 := hInv2 hd₁
                rw [h0]
                simp
            obtain ⟨ihA, ihB⟩ := ihf
              ⟨page.getLast hN, st₁.pageLimit, adjSkip, st₁.count,
               st.names ++ adjNames, st₁.doneFetching, st₁.cache⟩
              (fun h => hinv1' h)
              (fun hd => by
                show tailAfter snames np (page.getLast hN) = []
                rw [htail']
                exact hd₂ hd)
              (by
                show (tailAfter snames np (page.getLast hN)).length + 1 ≤ f
                rw [htail']
                omega)
            dsimp only at ihA ihB
            rw [htail'] at ihA ihB
            rw [hstream] at ihA ihB
            rw [← hstep] at ihA ihB
            rw [hc₁, hn₁] at ihA ihB
            constructor
            · exact ihA
            · intro nm rest h
              obtain ⟨stf, hf, hrest⟩ := ihB nm rest h
              exact ⟨stf, hf, hrest⟩
          by_cases hskip : 0 < st.skip
          · by_cases hsless : st.skip < ((page.length : Nat) : Int)
            · -- skip consumed inside this page
              refine (hred (page.drop st.skip.toNat) 0 ?_ (by intro h; omega) ?_).imp
                (fun a => a) (fun a => a)
              · simp only [fetchLoop, Int.ofNat_eq_coe]
                rw [← hpagedef]
                rw [if_pos hguard, if_neg hdone, dif_neg hN, if_pos hskip, if_pos hsless]
              · rw [hnames0]
                simp only [List.nil_append]
                rw [Int.toNat_zero, List.drop_zero, ← List.drop_append_of_le_length
                  (by rw [hptake, List.length_take]; omega)]
                conv_rhs => rw [hsplitT]
            · -- the whole page is consumed by the skip
              refine (hred [] (st.skip - ((page.length : Nat) : Int)) ?_
                (by intro h; simp [hnames0]) ?_).imp (fun a => a) (fun a => a)
              · simp only [fetchLoop, Int.ofNat_eq_coe]
                rw [← hpagedef]
                rw [if_pos hguard, if_neg hdone, dif_neg hN, if_pos hskip, if_neg hsless]
              · rw [hnames0]
                simp only [List.nil_append, List.append_nil]
                rw [List.drop_drop]
                congr 1
                omega
          · -- no residual skip: the page is appended whole
            refine (hred page st.skip ?_ (by intro h; omega) ?_).imp
              (fun a => a) (fun a => a)
            · simp only [fetchLoop, Int.ofNat_eq_coe]
              rw [← hpagedef]
              rw [if_pos hguard, if_neg hdone, dif_neg hN, if_neg hskip]
            · rw [hnames0]
              simp only [List.nil_append]
              have h0 : st.skip.toNat = 0 := by omega
              rw [h0, List.drop_zero, List.drop_zero, ← hsplitT]
    · -- buffered names remain and no skip: the loop body is skipped
      push_neg at hguard
      obtain ⟨hne, hsk⟩ := hguard
      have hsk0 : st.skip.toNat = 0 := by omega
      have hred : fetchLoop snames np (f + 1) st = .ready st := by
        simp only [fetchLoop]
        rw [if_neg (by push_neg; exact ⟨hne, hsk⟩)]
      constructor
      · intro h
        rw [hsk0, List.drop_zero] at h
        exact absurd (List.append_eq_nil.mp h).1 hne
      · intro nm rest h
        rw [hsk0, List.drop_zero] at h
        exact ⟨st, hred, rfl, rfl, by omega, h, hne, hInv2⟩

theorem lookupVal_mem (store : Store) (nm : String) (h : nm ∈ storeNames store) :
    ∃ v, lookupVal store nm = some v := by
  unfold storeNames at h
  obtain ⟨o, ho, hoeq⟩ := List.mem_map.mp h
  have hs : (store.find? fun o => decide (o.1 = nm)).isSome := by
    rw [List.find?_isSome]
    exact ⟨o, ho, by simp [hoeq]⟩
  obtain ⟨p, hp⟩ := Option.isSome_iff_exists.mp hs
  exact ⟨p.2, by unfold lookupVal; rw [hp]; rfl⟩

theorem runQuery_spec (store : Store) (q : DsQuery) (snames : List String) (np : String)
    (hsn : snames = storeNames store) (hnp : np = keyToName q.qPfx)
    (hsort : SortedNames snames) (hlim : 0 ≤ q.qLimit) :
    ∀ (fuel : Nat) (st : QState),
      (0 < st.skip → st.names = []) →
      (st.doneFetching = true → tailAfter snames np st.marker = []) →
      (∀ x ∈ st.names, x ∈ snames) →
      (0 < q.qLimit → st.count ≤ q.qLimit) →
      st.names.length + (tailAfter snames np st.marker).length + 1 ≤ fuel →
      (runQuery store q fuel st).out = .finished ∧
      (runQuery store q fuel st).emits.map Emit.name =
        (if q.qLimit = 0 then
          (st.names ++ tailAfter snames np st.marker).drop st.skip.toNat
         else
          ((st.names ++ tailAfter snames np st.marker).drop st.skip.toNat).take
            (q.qLimit - st.count).toNat) ∧
      (q.qLimit ≠ 0 ∧ st.count = q.qLimit → runQuery store q fuel st = ⟨[], .finished, st⟩) ∧
      (0 < q.qLimit → st.count < q.qLimit →
        (q.qLimit - st.count).toNat ≤
          ((st.names ++ tailAfter snames np st.marker).drop st.skip.toNat).length →
        ∀ lastName, ((runQuery store q fuel st).emits.map Emit.name).getLast? = some lastName →
          (runQuery store q fuel st).final.cache =
            ⟨keyToName q.qPfx, q.qOffset + q.qLimit, lastName⟩) := by
  subst hsn hnp
  intro fuel
  induction fuel with
  | zero =>
    intro st _ _ _ _ hfuel
    omega
  | succ f ihf =>
    intro st hInv1 hInv2 hsub hcnt hfuel
    by_cases hlimhit : q.qLimit ≠ 0 ∧ st.count = q.qLimit
    · have hfin := nextStep_at_limit store q st hlimhit.1 hlimhit.2
      have hrun : runQuery store q (f + 1) st = ⟨[], .finished, st⟩ := by
        rw [runQuery, hfin]
      refine ⟨by rw [hrun], ?_, fun _ => hrun, ?_⟩
      · rw [hrun, if_neg hlimhit.1]
        have h0 : (q.qLimit - st.count).toNat = 0 := by omega
        rw [h0, List.take_zero]
        rfl
      · intro _ hlt _ _ _
        omega
    · obtain ⟨specA, specB⟩ := fetchLoop_spec (storeNames store) (keyToName q.qPfx) hsort
        (fetchFuel (storeNames store) (keyToName q.qPfx) st) st hInv1 hInv2 (Nat.le_of_eq rfl)
      cases hstream : (st.names ++ tailAfter (storeNames store) (keyToName q.qPfx) st.marker).drop
          st.skip.toNat with
      | nil =>
        obtain ⟨stf, hfl, hcache, hcount⟩ := specA hstream
        have hnext : nextStep store q st = .finished stf := by
          simp only [nextStep, if_neg hlimhit, hfl]
        have hrun : runQuery store q (f + 1) st = ⟨[], .finished, stf⟩ := by
          rw [runQuery, hnext]
        refine ⟨by rw [hrun], ?_, fun hl => absurd hl hlimhit, ?_⟩
        · rw [hrun]
          simp
        · intro _ _ _ lastName hsome
          rw [hrun] at hsome
          simp at hsome
      | cons nm rest =>
        obtain ⟨stf, hfl, hcache, hcount, hskf, hstreamf, hnef, hdonef⟩ := specB nm rest hstream
        cases hsnames : stf.names with
        | nil => exact absurd hsnames hnef
        | cons nm₀ rest₀ =>
          rw [hsnames, List.cons_append] at hstreamf
          have hnm : nm₀ = nm := (List.cons.injEq _ _ _ _ ▸ hstreamf).1
          have hrest : rest₀ ++ tailAfter (storeNames store) (keyToName q.qPfx) stf.marker =
              rest := (List.cons.injEq _ _ _ _ ▸ hstreamf).2
          rw [hnm] at hsnames
          have hmemnm : nm ∈ storeNames store := by
            have h1 : nm ∈ st.names ++
                tailAfter (storeNames store) (keyToName q.qPfx) st.marker := by
              apply List.mem_of_mem_drop (n := st.skip.toNat)
              rw [hstream]
              exact List.mem_cons_self _ _
            rcases List.mem_append.mp h1 with h | h
            · exact hsub nm h
            · exact (mem_tailAfter h).1
          obtain ⟨v, hv⟩ := lookupVal_mem store nm hmemnm
          have hnext : nextStep store q st =
              .emit ⟨nm, (if q.keysOnly = true then none else some v),
                (stf.doneFetching || decide (0 < q.qLimit ∧ stf.count + 1 = q.qLimit)),
                stf.doneFetching⟩
              ⟨stf.marker,
               (if rest₀ = [] ∧ stf.count + 1 < q.qLimit ∧
                   q.qLimit - (stf.count + 1) < stf.pageLimit then
                 q.qLimit - (stf.count + 1) else stf.pageLimit),
               stf.skip, stf.count + 1, rest₀,
               stf.doneFetching,
               (if (stf.doneFetching || decide (0 < q.qLimit ∧ stf.count + 1 = q.qLimit)) = true then
                 (⟨keyToName q.qPfx, q.qOffset + (stf.count + 1), nm⟩ : Cache) else stf.cache)⟩ := by
            simp only [nextStep, if_neg hlimhit, hfl, hsnames]
            by_cases hko : q.keysOnly = true
            · rw [if_pos hko, if_pos hko]
            · rw [if_neg hko, if_neg hko, hv]
          generalize hEdef : (⟨nm, (if q.keysOnly = true then none else some v),
              (stf.doneFetching || decide (0 < q.qLimit ∧ stf.count + 1 = q.qLimit)),
              stf.doneFetching⟩ : Emit) = E at hnext
          generalize hYdef : (⟨stf.marker,
               (if rest₀ = [] ∧ stf.count + 1 < q.qLimit ∧
                   q.qLimit - (stf.count + 1) < stf.pageLimit then
                 q.qLimit - (stf.count + 1) else stf.pageLimit),
               stf.skip, stf.count + 1, rest₀,
               stf.doneFetching,
               (if (stf.doneFetching || decide (0 < q.qLimit ∧ stf.count + 1 = q.qLimit)) = true then
                 (⟨keyToName q.qPfx, q.qOffset + (stf.count + 1), nm⟩ : Cache)
                else stf.cache)⟩ : QState) = Y at hnext
          have hYskip : Y.skip = stf.skip := by rw [← hYdef]
          have hYcount : Y.count = stf.count + 1 := by rw [← hYdef]
          have hYnames : Y.names = rest₀ := by rw [← hYdef]
          have hYmarker : Y.marker = stf.marker := by rw [← hYdef]
          have hYdone : Y.doneFetching = stf.doneFetching := by rw [← hYdef]
          have hYcache : Y.cache =
              (if (stf.doneFetching || decide (0 < q.qLimit ∧ stf.count + 1 = q.qLimit)) = true then
                (⟨keyToName q.qPfx, q.qOffset + (stf.count + 1), nm⟩ : Cache) else stf.cache) := by
            rw [← hYdef]
          have hEname : E.name = nm := by rw [← hEdef]
          have hrun : runQuery store q (f + 1) st =
              ⟨E :: (runQuery store q f Y).emits, (runQuery store q f Y).out,
               (runQuery store q f Y).final⟩ := by
            rw [runQuery, hnext]
          have hLdrop : rest.length + 1 ≤ st.names.length +
              (tailAfter (storeNames store) (keyToName q.qPfx) st.marker).length := by
            have hL := congrArg List.length hstream
            rw [List.length_drop, List.length_append] at hL
            simp at hL
            omega
          have ihY := ihf Y
            (by rw [hYskip]; intro h; exact absurd h (by omega))
            (by rw [hYdone, hYmarker]; exact hdonef)
            (by
              rw [hYnames]
              intro x hx
              have hx2 : x ∈ rest := by
                rw [← hrest]
                exact List.mem_append_left _ hx
              have hx3 : x ∈ st.names ++
                  tailAfter (storeNames store) (keyToName q.qPfx) st.marker := by
                apply List.mem_of_mem_drop (n := st.skip.toNat)
                rw [hstream]
                exact List.mem_cons_of_mem _ hx2
              rcases List.mem_append.mp hx3 with h | h
              · exact hsub x h
              · exact (mem_tailAfter h).1)
            (by
              rw [hYcount, hcount]
              intro hp
              have hne2 : ¬ st.count = q.qLimit := fun hc => hlimhit ⟨by omega, hc⟩
              have := hcnt hp
              omega)
            (by
              rw [hYnames, hYmarker]
              have hL1 := congrArg List.length hrest
              rw [List.length_append] at hL1
              omega)
          rw [hYskip, hYcount, hYnames, hYmarker] at ihY
          have h0 : stf.skip.toNat = 0 := by omega
          rw [h0, List.drop_zero, hrest] at ihY
          refine ⟨?_, ?_, fun hl => absurd hl hlimhit, ?_⟩
          · rw [hrun]
            exact ihY.1
          · rw [hrun]
            show E.name :: (runQuery store q f Y).emits.map Emit.name = _
            rw [hEname, ihY.2.1]
            by_cases hl0 : q.qLimit = 0
            · rw [if_pos hl0, if_pos hl0]
            · rw [if_neg hl0, if_neg hl0]
              have hcc : (q.qLimit - st.count).toNat =
                  (q.qLimit - (stf.count + 1)).toNat + 1 := by
                have hne2 : ¬ st.count = q.qLimit := fun hc => hlimhit ⟨hl0, hc⟩
                have := hcnt (by omega)
                omega
              rw [hcc, List.take_succ_cons]
          · intro hpos hlt hlen lastName hsome
            rw [List.length_cons] at hlen
            rw [hrun] at hsome ⊢
            have hsome' : (E.name :: (runQuery store q f Y).emits.map Emit.name).getLast? =
                some lastName := hsome
            rw [hEname] at hsome'
            by_cases hrem1 : q.qLimit = st.count + 1
            · have hY0 := ihY.2.2.1 ⟨by omega, by omega⟩
              rw [hY0] at hsome' ⊢
              simp at hsome'
              show Y.cache = _
              rw [hYcache]
              have hcondT : (stf.doneFetching ||
                  decide (0 < q.qLimit ∧ stf.count + 1 = q.qLimit)) = true := by
                rw [Bool.or_eq_true]
                exact Or.inr (decide_eq_true ⟨hpos, by omega⟩)
              rw [if_pos hcondT]
              rw [show stf.count + 1 = q.qLimit from by omega, ← hsome']
            · have hremY : (q.qLimit - (stf.count + 1)).toNat ≤ rest.length := by omega
              have cacheIH := ihY.2.2.2 hpos (by omega) hremY
              have hne' : (runQuery store q f Y).emits.map Emit.name ≠ [] := by
                rw [ihY.2.1, if_neg (by omega : ¬ q.qLimit = 0)]
                intro heq
                rcases List.take_eq_nil_iff.mp heq with h | h
                · omega
                · rw [h, List.length_nil] at hremY
                  omega
              cases hml : (runQuery store q f Y).emits.map Emit.name with
              | nil => exact absurd hml hne'
              | cons a l =>
                rw [hml, List.getLast?_cons_cons] at hsome'
                have hfc := cacheIH lastName (by rw [hml]; exact hsome')
                exact hfc

theorem startState_no_hit (cache₀ : Cache) (q : DsQuery)
    (h : ¬(cache₀.pfx = keyToName q.qPfx ∧ cache₀.name ≠ "" ∧ cache₀.index ≤ q.qOffset)) :
    (startState cache₀ q).marker = "" ∧ (startState cache₀ q).skip = q.qOffset ∧
    (startState cache₀ q).count = 0 ∧ (startState cache₀ q).names = [] ∧
    (startState cache₀ q).doneFetching = false ∧ (startState cache₀ q).cache = cache₀ := by
  refine ⟨?_, ?_, rfl, rfl, rfl, rfl⟩
  · show (if cache₀.pfx = keyToName q.qPfx ∧ cache₀.name ≠ "" ∧ cache₀.index ≤ q.qOffset
      then cache₀.name else "") = ""
    rw [if_neg h]
  · show (if cache₀.pfx = keyToName q.qPfx ∧ cache₀.name ≠ "" ∧ cache₀.index ≤ q.qOffset
      then cache₀.index - q.qOffset else q.qOffset) = q.qOffset
    rw [if_neg h]

theorem startState_hit (cache₀ : Cache) (q : DsQuery)
    (h : cache₀.pfx = keyToName q.qPfx ∧ cache₀.name ≠ "" ∧ cache₀.index ≤ q.qOffset) :
    (startState cache₀ q).marker = cache₀.name ∧
    (startState cache₀ q).skip = cache₀.index - q.qOffset ∧
    (startState cache₀ q).count = 0 ∧ (startState cache₀ q).names = [] ∧
    (startState cache₀ q).doneFetching = false ∧ (startState cache₀ q).cache = cache₀ := by
  refine ⟨?_, ?_, rfl, rfl, rfl, rfl⟩
  · show (if cache₀.pfx = keyToName q.qPfx ∧ cache₀.name ≠ "" ∧ cache₀.index ≤ q.qOffset
      then cache₀.name else "") = cache₀.name
    rw [if_pos h]
  · show (if cache₀.pfx = keyToName q.qPfx ∧ cache₀.name ≠ "" ∧ cache₀.index ≤ q.qOffset
      then cache₀.index - q.qOffset else q.qOffset) = cache₀.index - q.qOffset
    rw [if_pos h]

theorem emittedKeys_eq_map (r : QueryRun) :
    emittedKeys r = (r.emits.map Emit.name).map (fun s => "/" ++ s) := by
  unfold emittedKeys
  rw [List.map_map]
  rfl

theorem mem_tailAfter_S (store : Store) (np : String)
    (hne : ∀ x ∈ storeNames store, strLt "" x = true) (y x : String)
    (hx : x ∈ tailAfter (storeNames store) np y) :
    x ∈ tailAfter (storeNames store) np "" := by
  obtain ⟨hmem, hpfx, _⟩ := mem_tailAfter hx
  exact List.mem_filter.mpr ⟨hmem, by rw [hpfx, hne x hmem]; rfl⟩

theorem runQ_eq (store : Store) (c : Cache) (q : DsQuery) :
    runQ store c q = runQuery store q (queryFuel store q (startState c q)) (startState c q) :=
  rfl

/-- Claim C2 (amended): on a store whose name listing is strictly
ascending with non-empty names, starting from any cursor-cache state
the implementation can reach (empty marker or index at least 1), for
all positive n and m the keys of Query(prefix, 0, n) followed by
Query(prefix, n, m) — the second query running against the cache the
first one left — are together exactly the keys of
Query(prefix, 0, n+m): sequential paging neither skips nor duplicates
any key. -/
theorem c2_pagination_union (store : Store) (cache₀ : Cache) (rawP : String)
    (n m : Int) (ko : Bool) (k : String)
    (hsort : SortedNames (storeNames store))
    (hne : ∀ x ∈ storeNames store, strLt "" x = true)
    (hwf : cache₀.name = "" ∨ 1 ≤ cache₀.index)
    (hn : 1 ≤ n) (hm : 1 ≤ m) :
    (k ∈ emittedKeys (runQ store cache₀ ⟨rawP, 0, n, ko, false⟩) ++
       emittedKeys (runQ store (runQ store cache₀ ⟨rawP, 0, n, ko, false⟩).final.cache
         ⟨rawP, n, m, ko, false⟩) ↔
     k ∈ emittedKeys (runQ store cache₀ ⟨rawP, 0, n + m, ko, false⟩)) := by
  have hnohit : ¬(cache₀.pfx = keyToName rawP ∧ cache₀.name ≠ "" ∧ cache₀.index ≤ (0 : Int)) := by
    rintro ⟨_, hname, hidx⟩
    rcases hwf with h | h
    · exact hname h
    · omega
  have hf1 := startState_no_hit cache₀ ⟨rawP, 0, n, ko, false⟩ hnohit
  have hfc := startState_no_hit cache₀ ⟨rawP, 0, n + m, ko, false⟩ hnohit
  -- characterize the first query
  obtain ⟨hout1, hmap1, hzero1, hcache1⟩ := runQuery_spec store ⟨rawP, 0, n, ko, false⟩
    (storeNames store) (keyToName rawP) rfl rfl hsort (by dsimp only; omega)
    (queryFuel store ⟨rawP, 0, n, ko, false⟩ (startState cache₀ ⟨rawP, 0, n, ko, false⟩))
    (startState cache₀ ⟨rawP, 0, n, ko, false⟩)
    (fun _ => hf1.2.2.2.1)
    (by intro h; rw [hf1.2.2.2.2.1] at h; cases h)
    (by intro x hx; rw [hf1.2.2.2.1] at hx; cases hx)
    (by dsimp only; intro _; rw [hf1.2.2.1]; omega)
    (Nat.le_of_eq rfl)
  dsimp only at hmap1 hzero1 hcache1
  rw [hf1.1, hf1.2.1, hf1.2.2.1, hf1.2.2.2.1] at hmap1 hcache1
  simp only [List.nil_append, Int.toNat_zero, List.drop_zero, Int.sub_zero] at hmap1 hcache1
  rw [if_neg (show ¬ n = 0 by omega)] at hmap1
  -- characterize the combined query
  obtain ⟨houtc, hmapc, hzeroc, hcachec⟩ := runQuery_spec store ⟨rawP, 0, n + m, ko, false⟩
    (storeNames store) (keyToName rawP) rfl rfl hsort (by dsimp only; omega)
    (queryFuel store ⟨rawP, 0, n + m, ko, false⟩
      (startState cache₀ ⟨rawP, 0, n + m, ko, false⟩))
    (startState cache₀ ⟨rawP, 0, n + m, ko, false⟩)
    (fun _ => hfc.2.2.2.1)
    (by intro h; rw [hfc.2.2.2.2.1] at h; cases h)
    (by intro x hx; rw [hfc.2.2.2.1] at hx; cases hx)
    (by dsimp only; intro _; rw [hfc.2.2.1]; omega)
    (Nat.le_of_eq rfl)
  dsimp only at hmapc
  rw [hfc.1, hfc.2.1, hfc.2.2.1, hfc.2.2.2.1] at hmapc
  simp only [List.nil_append, Int.toNat_zero, List.drop_zero, Int.sub_zero] at hmapc
  rw [if_neg (show ¬ n + m = 0 by omega)] at hmapc
  simp only [runQ_eq]
  by_cases hcase : n.toNat ≤ (tailAfter (storeNames store) (keyToName rawP) "").length
  · -- the first query reaches its limit and caches its last key
    have hlen1 : ((tailAfter (storeNames store) (keyToName rawP) "").take n.toNat).length
        = n.toNat := by
      rw [List.length_take]
      omega
    have hne1 : (tailAfter (storeNames store) (keyToName rawP) "").take n.toNat ≠ [] := by
      intro h
      have := congrArg List.length h
      rw [hlen1] at this
      simp at this
      omega
    have hlast? : ((tailAfter (storeNames store) (keyToName rawP) "").take n.toNat).getLast? =
        some (((tailAfter (storeNames store) (keyToName rawP) "").take n.toNat).getLast hne1) :=
      List.getLast?_eq_getLast _ hne1
    have hc1 := hcache1 (by omega) (by omega) (by omega) _ (by rw [hmap1]; exact hlast?)
    have hlastS : ((tailAfter (storeNames store) (keyToName rawP) "").take n.toNat).getLast hne1 ∈
        tailAfter (storeNames store) (keyToName rawP) "" :=
      List.mem_of_mem_take (List.getLast_mem hne1)
    have hlastne : ((tailAfter (storeNames store) (keyToName rawP) "").take n.toNat).getLast hne1
        ≠ "" := by
      intro heq
      have h1 := hne _ (mem_tailAfter hlastS).1
      rw [heq] at h1
      rw [strLt_irrefl] at h1
      cases h1
    rw [hc1]
    -- the second query resumes exactly after the cached marker
    have hhit2 : (⟨keyToName rawP, 0 + n,
        ((tailAfter (storeNames store) (keyToName rawP) "").take n.toNat).getLast hne1⟩ :
          Cache).pfx = keyToName (⟨rawP, n, m, ko, false⟩ : DsQuery).qPfx ∧
        (⟨keyToName rawP, 0 + n,
        ((tailAfter (storeNames store) (keyToName rawP) "").take n.toNat).getLast hne1⟩ :
          Cache).name ≠ "" ∧
        (⟨keyToName rawP, 0 + n,
        ((tailAfter (storeNames store) (keyToName rawP) "").take n.toNat).getLast hne1⟩ :
          Cache).index ≤ (⟨rawP, n, m, ko, false⟩ : DsQuery).qOffset := by
      refine ⟨rfl, hlastne, ?_⟩
      show 0 + n ≤ n
      omega
    have hf2 := startState_hit _ ⟨rawP, n, m, ko, false⟩ hhit2
    obtain ⟨hout2, hmap2, hzero2, hcache2⟩ := runQuery_spec store ⟨rawP, n, m, ko, false⟩
      (storeNames store) (keyToName rawP) rfl rfl hsort (by dsimp only; omega)
      (queryFuel store ⟨rawP, n, m, ko, false⟩ (startState _ ⟨rawP, n, m, ko, false⟩))
      (startState _ ⟨rawP, n, m, ko, false⟩)
      (fun _ => hf2.2.2.2.1)
      (by intro h; rw [hf2.2.2.2.2.1] at h; cases h)
      (by intro x hx; rw [hf2.2.2.2.1] at hx; cases hx)
      (by dsimp only; intro _; rw [hf2.2.2.1]; omega)
      (Nat.le_of_eq rfl)
    dsimp only at hmap2
    rw [hf2.1, hf2.2.1, hf2.2.2.1, hf2.2.2.2.1] at hmap2
    dsimp only at hmap2
    rw [if_neg (show ¬ m = 0 by omega)] at hmap2
    have hsk2 : ((0 : Int) + n - n).toNat = 0 := by omega
    rw [hsk2, List.drop_zero, List.nil_append, Int.sub_zero] at hmap2
    have htail2 : tailAfter (storeNames store) (keyToName rawP)
        (((tailAfter (storeNames store) (keyToName rawP) "").take n.toNat).getLast hne1) =
        (tailAfter (storeNames store) (keyToName rawP) "").drop n.toNat :=
      tailAfter_split (storeNames store) (keyToName rawP) "" hsort _ _
        (List.take_append_drop n.toNat _).symm hne1
    rw [htail2] at hmap2
    -- assemble the lists
    rw [emittedKeys_eq_map, emittedKeys_eq_map, emittedKeys_eq_map, hmap1, hmap2, hmapc]
    rw [← List.map_append]
    have htadd : (tailAfter (storeNames store) (keyToName rawP) "").take n.toNat ++
        ((tailAfter (storeNames store) (keyToName rawP) "").drop n.toNat).take m.toNat =
        (tailAfter (storeNames store) (keyToName rawP) "").take (n + m).toNat := by
      rw [show (n + m).toNat = n.toNat + m.toNat by omega]
      exact (List.take_add _ _ _).symm
    rw [htadd]
  · -- the first query exhausts the listing
    rw [List.take_of_length_le (by omega)] at hmap1
    rw [List.take_of_length_le (by omega)] at hmapc
    have hsub2 : ∀ x ∈ (runQuery store ⟨rawP, n, m, ko, false⟩
        (queryFuel store ⟨rawP, n, m, ko, false⟩
          (startState (runQuery store ⟨rawP, 0, n, ko, false⟩
            (queryFuel store ⟨rawP, 0, n, ko, false⟩
              (startState cache₀ ⟨rawP, 0, n, ko, false⟩))
            (startState cache₀ ⟨rawP, 0, n, ko, false⟩)).final.cache
          ⟨rawP, n, m, ko, false⟩))
        (startState (runQuery store ⟨rawP, 0, n, ko, false⟩
            (queryFuel store ⟨rawP, 0, n, ko, false⟩
              (startState cache₀ ⟨rawP, 0, n, ko, false⟩))
            (startState cache₀ ⟨rawP, 0, n, ko, false⟩)).final.cache
          ⟨rawP, n, m, ko, false⟩)).emits.map Emit.name,
        x ∈ tailAfter (storeNames store) (keyToName rawP) "" := by
      by_cases hh2 : (runQuery store ⟨rawP, 0, n, ko, false⟩
            (queryFuel store ⟨rawP, 0, n, ko, false⟩
              (startState cache₀ ⟨rawP, 0, n, ko, false⟩))
            (startState cache₀ ⟨rawP, 0, n, ko, false⟩)).final.cache.pfx =
          keyToName (⟨rawP, n, m, ko, false⟩ : DsQuery).qPfx ∧
          (runQuery store ⟨rawP, 0, n, ko, false⟩
            (queryFuel store ⟨rawP, 0, n, ko, false⟩
              (startState cache₀ ⟨rawP, 0, n, ko, false⟩))
            (startState cache₀ ⟨rawP, 0, n, ko, false⟩)).final.cache.name ≠ "" ∧
          (runQuery store ⟨rawP, 0, n, ko, false⟩
            (queryFuel store ⟨rawP, 0, n, ko, false⟩
              (startState cache₀ ⟨rawP, 0, n, ko, false⟩))
            (startState cache₀ ⟨rawP, 0, n, ko, false⟩)).final.cache.index ≤
            (⟨rawP, n, m, ko, false⟩ : DsQuery).qOffset
      · have hf2 := startState_hit _ ⟨rawP, n, m, ko, false⟩ hh2
        obtain ⟨hout2, hmap2, hzero2, hcache2⟩ := runQuery_spec store ⟨rawP, n, m, ko, false⟩
          (storeNames store) (keyToName rawP) rfl rfl hsort (by dsimp only; omega)
          (queryFuel store ⟨rawP, n, m, ko, false⟩ (startState _ ⟨rawP, n, m, ko, false⟩))
          (startState _ ⟨rawP, n, m, ko, false⟩)
          (fun _ => hf2.2.2.2.1)
          (by intro h; rw [hf2.2.2.2.2.1] at h; cases h)
          (by intro x hx; rw [hf2.2.2.2.1] at hx; cases hx)
          (by dsimp only; intro _; rw [hf2.2.2.1]; omega)
          (Nat.le_of_eq rfl)
        dsimp only at hmap2
        rw [hf2.1, hf2.2.1, hf2.2.2.1, hf2.2.2.2.1] at hmap2
        rw [if_neg (show ¬ m = 0 by omega), List.nil_append] at hmap2
        intro x hx
        rw [hmap2] at hx
        have hx2 := List.mem_of_mem_take hx
        have hx3 := List.mem_of_mem_drop hx2
        exact mem_tailAfter_S store (keyToName rawP) hne _ x hx3
      · have hf2 := startState_no_hit _ ⟨rawP, n, m, ko, false⟩ hh2
        obtain ⟨hout2, hmap2, hzero2, hcache2⟩ := runQuery_spec store ⟨rawP, n, m, ko, false⟩
          (storeNames store) (keyToName rawP) rfl rfl hsort (by dsimp only; omega)
          (queryFuel store ⟨rawP, n, m, ko, false⟩ (startState _ ⟨rawP, n, m, ko, false⟩))
          (startState _ ⟨rawP, n, m, ko, false⟩)
          (fun _ => hf2.2.2.2.1)
          (by intro h; rw [hf2.2.2.2.2.1] at h; cases h)
          (by intro x hx; rw [hf2.2.2.2.1] at hx; cases hx)
          (by dsimp only; intro _; rw [hf2.2.2.1]; omega)
          (Nat.le_of_eq rfl)
        dsimp only at hmap2
        rw [hf2.1, hf2.2.1, hf2.2.2.1, hf2.2.2.2.1] at hmap2
        rw [if_neg (show ¬ m = 0 by omega), List.nil_append] at hmap2
        intro x hx
        rw [hmap2] at hx
        have hx2 := List.mem_of_mem_take hx
        exact List.mem_of_mem_drop hx2
    rw [emittedKeys_eq_map, emittedKeys_eq_map, emittedKeys_eq_map, hmap1, hmapc]
    constructor
    · intro hk
      rcases List.mem_append.mp hk with h | h
      · exact h
      · obtain ⟨x, hx, hfx⟩ := List.mem_map.mp h
        exact List.mem_map.mpr ⟨x, hsub2 x hx, hfx⟩
    · intro hk
      exact List.mem_append.mpr (Or.inl hk)

/-- Witness for C2 (amended) on a concrete three-object store with
n = m = 1. -/
theorem c2_pagination_union_witness :
    ("/a/2" ∈ emittedKeys (runQ demoStore3 Cache.empty ⟨"/a/", 0, 1, false, false⟩) ++
       emittedKeys (runQ demoStore3
         (runQ demoStore3 Cache.empty ⟨"/a/", 0, 1, false, false⟩).final.cache
         ⟨"/a/", 1, 1, false, false⟩) ↔
     "/a/2" ∈ emittedKeys (runQ demoStore3 Cache.empty ⟨"/a/", 0, 1 + 1, false, false⟩)) :=
  c2_pagination_union demoStore3 Cache.empty "/a/" 1 1 false "/a/2"
    (by decide) (by decide) (Or.inl rfl) (by decide) (by decide)

/-- Claim C2 (counterexample): the claim ranges over all non-negative n
and m, but limit 0 means unbounded: with n = 0 and m = 1 on a
two-object store, Query(offset 0, limit 0) emits both keys, the
follow-up Query(offset 0, limit 1) emits the first, and the union
contains /a/2, while the claimed equivalent Query(offset 0, limit 0+1)
emits only /a/1. -/
theorem c2_zero_limit_counterexample :
    ("/a/2" ∈ emittedKeys (runQ store2 Cache.empty ⟨"/a/", 0, 0, false, false⟩) ++
       emittedKeys (runQ store2
         (runQ store2 Cache.empty ⟨"/a/", 0, 0, false, false⟩).final.cache
         ⟨"/a/", 0, 1, false, false⟩)) ∧
    ("/a/2" ∉ emittedKeys (runQ store2 Cache.empty ⟨"/a/", 0, 0 + 1, false, false⟩)) := by
  decide

end SwiftDs
